import Mathlib

/-!
Verification development for the `hetnet_ml` repository (two modules:
`graph_tools.py` and `extractor.py`).  The Python source is shallowly
embedded: pandas data frames become lists of typed rows plus a list of
column names, Python `set`s become `Finset`s, sparse matrices become
functions `Nat → Nat → _`, fallible code returns `Except`, and the
external pseudo-random stream is modelled as a deterministic stream
derived from the seed.  Node identifiers are modelled as `Nat` (the code
treats them as opaque hashable values).
-/

namespace HetnetML

/-! ## Character classes used by the edge-abbreviation parsers

`graph_tools.parse_edge_abbrev` uses the regexes `[A-Z]+` and `[a-z]+`,
which match exactly the ASCII ranges below.  The character-by-character
loop in `MatrixFormattedGraph.get_metagraph` instead compares a character
with its own `upper()`/`lower()` image, which we model via `Char.toUpper`
and `Char.toLower`. -/

theorem dropWhile_len_le {α : Type} (p : α → Bool) (l : List α) :
    (l.dropWhile p).length ≤ l.length := by
  induction l with
  | nil => simp
  | cons c cs ih =>
    simp only [List.dropWhile]
    split
    · exact ih.trans (Nat.le_succ _)
    · exact Nat.le_refl _

def isUpperAZ (c : Char) : Bool := 'A' ≤ c && c ≤ 'Z'

def isLowerAZ (c : Char) : Bool := 'a' ≤ c && c ≤ 'z'

/-- Maximal runs of characters satisfying `p`, in order: the model of
`regex.findall(pattern='[A-Z]+', ...)` (with `p := isUpperAZ`), and of the
sequence of `regex.search(pattern='[a-z]+', ...)` matches (first element,
with `p := isLowerAZ`). -/
def runsBy (p : Char → Bool) : List Char → List (List Char)
  | [] => []
  | c :: cs =>
    if p c then (c :: cs.takeWhile p) :: runsBy p (cs.dropWhile p)
    else runsBy p cs
termination_by l => l.length
decreasing_by
  · simpa using Nat.lt_succ_of_le (dropWhile_len_le p cs)
  · simp

/-- Model of `graph_tools.parse_edge_abbrev`: the first two maximal
uppercase runs give the start- and end-type abbreviations, the first
maximal lowercase run gives the predicate abbreviation.  The source
raises (`IndexError`/`AttributeError`) when a run is missing, modelled
here by `none`. -/
def parse_edge_abbrev (s : List Char) : Option (List Char × List Char × List Char) :=
  match runsBy isUpperAZ s, runsBy isLowerAZ s with
  | u1 :: u2 :: _, l :: _ => some (u1, l, u2)
  | _, _ => none

/-- State of the character-by-character parsing loop inside
`MatrixFormattedGraph.get_metagraph.get_abbrev_dict_and_edge_tuples`. -/
structure AbbrevLoopState where
  start : Bool
  startAbbrev : List Char
  edgeAbbrev : List Char
  endAbbrev : List Char
  deriving DecidableEq

/-- One iteration of the `for char in edge_abbrevs[i]` loop in
`get_metagraph`: skip direction markers; an uppercase-fixed character is
appended to the start or end abbreviation depending on the `start` flag;
a lowercase-fixed character clears the flag and extends the edge
abbreviation.  (In Python both branches fire for case-less characters;
the model keeps that behaviour.) -/
def abbrevStep (st : AbbrevLoopState) (c : Char) : AbbrevLoopState :=
  if c = '>' || c = '<' then st
  else
    let st1 :=
      if c.toUpper = c then
        if st.start then { st with startAbbrev := st.startAbbrev ++ [c] }
        else { st with endAbbrev := st.endAbbrev ++ [c] }
      else st
    if c.toLower = c then
      { st1 with start := false, edgeAbbrev := st1.edgeAbbrev ++ [c] }
    else st1

/-- Model of the character-by-character parsing loop in
`MatrixFormattedGraph.get_metagraph`, returning the
(start abbreviation, edge abbreviation, end abbreviation) triple. -/
def metagraph_parse (s : List Char) : List Char × List Char × List Char :=
  let st := s.foldl abbrevStep ⟨true, [], [], []⟩
  (st.startAbbrev, st.edgeAbbrev, st.endAbbrev)

/-! ## Character facts for the parser equivalence -/

theorem upperAZ_iff (c : Char) : isUpperAZ c = true ↔ 65 ≤ c.toNat ∧ c.toNat ≤ 90 := by
  have hA : ('A' : Char).val.toBitVec.toNat = 65 := rfl
  have hZ : ('Z' : Char).val.toBitVec.toNat = 90 := rfl
  have hc : c.val.toBitVec.toNat = c.toNat := rfl
  simp only [isUpperAZ, Bool.and_eq_true, decide_eq_true_eq, Char.le_def, UInt32.le_def,
    BitVec.le_def, hA, hZ, hc]

theorem lowerAZ_iff (c : Char) : isLowerAZ c = true ↔ 97 ≤ c.toNat ∧ c.toNat ≤ 122 := by
  have ha : ('a' : Char).val.toBitVec.toNat = 97 := rfl
  have hz : ('z' : Char).val.toBitVec.toNat = 122 := rfl
  have hc : c.val.toBitVec.toNat = c.toNat := rfl
  simp only [isLowerAZ, Bool.and_eq_true, decide_eq_true_eq, Char.le_def, UInt32.le_def,
    BitVec.le_def, ha, hz, hc]

theorem toNat_ofNat_valid {n : Nat} (hv : n.isValidChar) : (Char.ofNat n).toNat = n := by
  simp only [Char.ofNat, dif_pos hv]
  rfl

theorem upperAZ_toUpper {c : Char} (h : isUpperAZ c = true) : c.toUpper = c := by
  rw [upperAZ_iff] at h
  unfold Char.toUpper
  rw [if_neg]
  omega

theorem upperAZ_toLower_ne {c : Char} (h : isUpperAZ c = true) : c.toLower ≠ c := by
  rw [upperAZ_iff] at h
  unfold Char.toLower
  rw [if_pos (by omega)]
  intro heq
  have hv : (c.toNat + 32).isValidChar := by
    left
    omega
  have := toNat_ofNat_valid hv
  rw [heq] at this
  omega

theorem lowerAZ_toLower {c : Char} (h : isLowerAZ c = true) : c.toLower = c := by
  rw [lowerAZ_iff] at h
  unfold Char.toLower
  rw [if_neg]
  omega

theorem lowerAZ_toUpper_ne {c : Char} (h : isLowerAZ c = true) : c.toUpper ≠ c := by
  rw [lowerAZ_iff] at h
  unfold Char.toUpper
  rw [if_pos (by omega)]
  intro heq
  have hv : (c.toNat - 32).isValidChar := by
    left
    omega
  have := toNat_ofNat_valid hv
  rw [heq] at this
  omega

theorem lowerAZ_not_upperAZ {c : Char} (h : isLowerAZ c = true) : isUpperAZ c = false := by
  rw [lowerAZ_iff] at h
  rw [Bool.eq_false_iff]
  intro hu
  rw [upperAZ_iff] at hu
  omega

theorem upperAZ_not_lowerAZ {c : Char} (h : isUpperAZ c = true) : isLowerAZ c = false := by
  rw [upperAZ_iff] at h
  rw [Bool.eq_false_iff]
  intro hl
  rw [lowerAZ_iff] at hl
  omega

theorem upperAZ_ne_marker {c : Char} (h : isUpperAZ c = true) : c ≠ '>' ∧ c ≠ '<' := by
  rw [upperAZ_iff] at h
  constructor <;> rintro rfl <;> simp_all

theorem lowerAZ_ne_marker {c : Char} (h : isLowerAZ c = true) : c ≠ '>' ∧ c ≠ '<' := by
  rw [lowerAZ_iff] at h
  constructor <;> rintro rfl <;> simp_all

/-! ## Behaviour of the two parsers on well-formatted abbreviations -/

theorem abbrevStep_marker_gt (st : AbbrevLoopState) : abbrevStep st '>' = st := by
  simp [abbrevStep]

theorem abbrevStep_marker_lt (st : AbbrevLoopState) : abbrevStep st '<' = st := by
  simp [abbrevStep]

theorem foldl_abbrevStep_upper_start (u : List Char) (hu : ∀ c ∈ u, isUpperAZ c = true) :
    ∀ st : AbbrevLoopState, st.start = true →
      u.foldl abbrevStep st = { st with startAbbrev := st.startAbbrev ++ u } := by
  induction u with
  | nil => intro st _; simp
  | cons c cs ih =>
    intro st hst
    have hc : isUpperAZ c = true := hu c (by simp)
    have hstep : abbrevStep st c = { st with startAbbrev := st.startAbbrev ++ [c] } := by
      simp [abbrevStep, (upperAZ_ne_marker hc).1, (upperAZ_ne_marker hc).2,
        upperAZ_toUpper hc, upperAZ_toLower_ne hc, hst]
    rw [List.foldl_cons, hstep, ih (fun d hd => hu d (by simp [hd])) _ (by simp [hst])]
    simp

theorem foldl_abbrevStep_upper_end (u : List Char) (hu : ∀ c ∈ u, isUpperAZ c = true) :
    ∀ st : AbbrevLoopState, st.start = false →
      u.foldl abbrevStep st = { st with endAbbrev := st.endAbbrev ++ u } := by
  induction u with
  | nil => intro st _; simp
  | cons c cs ih =>
    intro st hst
    have hc : isUpperAZ c = true := hu c (by simp)
    have hstep : abbrevStep st c = { st with endAbbrev := st.endAbbrev ++ [c] } := by
      simp [abbrevStep, (upperAZ_ne_marker hc).1, (upperAZ_ne_marker hc).2,
        upperAZ_toUpper hc, upperAZ_toLower_ne hc, hst]
    rw [List.foldl_cons, hstep, ih (fun d hd => hu d (by simp [hd])) _ (by simp [hst])]
    simp

theorem foldl_abbrevStep_lower_from_false (l : List Char) (hl : ∀ c ∈ l, isLowerAZ c = true) :
    ∀ st : AbbrevLoopState, st.start = false →
      l.foldl abbrevStep st = { st with edgeAbbrev := st.edgeAbbrev ++ l } := by
  induction l with
  | nil => intro st _; simp
  | cons c cs ih =>
    intro st hst
    have hc : isLowerAZ c = true := hl c (by simp)
    have hstep : abbrevStep st c = { st with start := false, edgeAbbrev := st.edgeAbbrev ++ [c] } := by
      simp [abbrevStep, (lowerAZ_ne_marker hc).1, (lowerAZ_ne_marker hc).2,
        lowerAZ_toLower hc, lowerAZ_toUpper_ne hc]
    rw [List.foldl_cons, hstep, ih (fun d hd => hl d (by simp [hd])) _ rfl]
    simp [hst]

theorem foldl_abbrevStep_lower (l : List Char) (hl : ∀ c ∈ l, isLowerAZ c = true)
    (hne : l ≠ []) (st : AbbrevLoopState) :
    l.foldl abbrevStep st = { st with start := false, edgeAbbrev := st.edgeAbbrev ++ l } := by
  match l, hne with
  | c :: cs, _ =>
    have hc : isLowerAZ c = true := hl c (by simp)
    have hstep : abbrevStep st c = { st with start := false, edgeAbbrev := st.edgeAbbrev ++ [c] } := by
      simp [abbrevStep, (lowerAZ_ne_marker hc).1, (lowerAZ_ne_marker hc).2,
        lowerAZ_toLower hc, lowerAZ_toUpper_ne hc]
    rw [List.foldl_cons, hstep,
      foldl_abbrevStep_lower_from_false cs (fun d hd => hl d (by simp [hd])) _ rfl]
    simp

theorem takeWhile_append_all {α : Type} (p : α → Bool) (xs ys : List α)
    (h : ∀ a ∈ xs, p a = true) : (xs ++ ys).takeWhile p = xs ++ ys.takeWhile p := by
  induction xs with
  | nil => simp
  | cons a l ih =>
    simp [List.takeWhile_cons, h a (by simp), ih (fun b hb => h b (by simp [hb]))]

theorem dropWhile_append_all {α : Type} (p : α → Bool) (xs ys : List α)
    (h : ∀ a ∈ xs, p a = true) : (xs ++ ys).dropWhile p = ys.dropWhile p := by
  induction xs with
  | nil => simp
  | cons a l ih =>
    simp [List.dropWhile_cons, h a (by simp), ih (fun b hb => h b (by simp [hb]))]

theorem takeWhile_eq_nil_of_head {α : Type} (p : α → Bool) (ys : List α)
    (h : ∀ c, ys.head? = some c → p c = false) : ys.takeWhile p = [] := by
  cases ys with
  | nil => simp
  | cons c cs => simp [List.takeWhile_cons, h c rfl]

theorem dropWhile_eq_self_of_head {α : Type} (p : α → Bool) (ys : List α)
    (h : ∀ c, ys.head? = some c → p c = false) : ys.dropWhile p = ys := by
  cases ys with
  | nil => simp
  | cons c cs => simp [List.dropWhile_cons, h c rfl]

theorem runsBy_append_none (p : Char → Bool) (xs ys : List Char)
    (h : ∀ a ∈ xs, p a = false) : runsBy p (xs ++ ys) = runsBy p ys := by
  induction xs with
  | nil => simp
  | cons a l ih =>
    rw [List.cons_append, runsBy, if_neg (by simp [h a (by simp)])]
    exact ih (fun b hb => h b (by simp [hb]))

theorem runsBy_run (p : Char → Bool) (u ys : List Char) (hu : ∀ a ∈ u, p a = true)
    (hne : u ≠ []) (hys : ∀ c, ys.head? = some c → p c = false) :
    runsBy p (u ++ ys) = u :: runsBy p ys := by
  match u, hne with
  | c :: cs, _ =>
    rw [List.cons_append, runsBy, if_pos (hu c (by simp)),
      takeWhile_append_all p cs ys (fun b hb => hu b (by simp [hb])),
      takeWhile_eq_nil_of_head p ys hys,
      dropWhile_append_all p cs ys (fun b hb => hu b (by simp [hb])),
      dropWhile_eq_self_of_head p ys hys]
    simp

/-- C10: for every edge-type abbreviation consisting of an uppercase run,
a lowercase run, optionally a direction marker `>` or `<`, and a final
uppercase run, the regex-based `parse_edge_abbrev` of `graph_tools` and
the character-by-character parsing loop inside
`MatrixFormattedGraph.get_metagraph` produce the same
(start abbreviation, predicate abbreviation, end abbreviation) triple,
namely the two uppercase runs around the lowercase run. -/
theorem parse_edge_abbrev_eq_metagraph_parse
    (u1 l m u2 : List Char)
    (hu1 : ∀ c ∈ u1, isUpperAZ c = true) (hu1ne : u1 ≠ [])
    (hl : ∀ c ∈ l, isLowerAZ c = true) (hlne : l ≠ [])
    (hm : m = [] ∨ m = ['>'] ∨ m = ['<'])
    (hu2 : ∀ c ∈ u2, isUpperAZ c = true) (hu2ne : u2 ≠ []) :
    parse_edge_abbrev (u1 ++ l ++ m ++ u2) = some (metagraph_parse (u1 ++ l ++ m ++ u2)) ∧
    metagraph_parse (u1 ++ l ++ m ++ u2) = (u1, l, u2) := by
  have hmU : ∀ c ∈ m, isUpperAZ c = false := by
    rcases hm with rfl | rfl | rfl <;> simp <;> decide
  have hmL : ∀ c ∈ m, isLowerAZ c = false := by
    rcases hm with rfl | rfl | rfl <;> simp <;> decide
  have hheadL : ∀ c, (l ++ (m ++ u2)).head? = some c → isUpperAZ c = false := by
    match l, hlne with
    | a :: t, _ =>
      intro c hc
      simp only [List.cons_append, List.head?_cons, Option.some.injEq] at hc
      subst hc
      exact lowerAZ_not_upperAZ (hl a (by simp))
  have hheadMU : ∀ c, (m ++ u2).head? = some c → isLowerAZ c = false := by
    rcases hm with rfl | rfl | rfl
    · match u2, hu2ne with
      | b :: t, _ =>
        intro c hc
        simp only [List.nil_append, List.head?_cons, Option.some.injEq] at hc
        subst hc
        exact upperAZ_not_lowerAZ (hu2 b (by simp))
    · intro c hc
      simp only [List.cons_append, List.head?_cons, Option.some.injEq] at hc
      subst hc
      decide
    · intro c hc
      simp only [List.cons_append, List.head?_cons, Option.some.injEq] at hc
      subst hc
      decide
  have hassoc : u1 ++ l ++ m ++ u2 = u1 ++ (l ++ (m ++ u2)) := by simp
  have hrunsU : runsBy isUpperAZ (u1 ++ l ++ m ++ u2) = [u1, u2] := by
    rw [hassoc, runsBy_run isUpperAZ u1 (l ++ (m ++ u2)) hu1 hu1ne hheadL,
      runsBy_append_none isUpperAZ l (m ++ u2) (fun c hc => lowerAZ_not_upperAZ (hl c hc)),
      runsBy_append_none isUpperAZ m u2 hmU]
    have := runsBy_run isUpperAZ u2 [] hu2 hu2ne (by simp)
    simpa [runsBy] using this
  have hrunsL : ∃ rest, runsBy isLowerAZ (u1 ++ l ++ m ++ u2) = l :: rest := by
    rw [hassoc, runsBy_append_none isLowerAZ u1 (l ++ (m ++ u2))
        (fun c hc => upperAZ_not_lowerAZ (hu1 c hc)),
      runsBy_run isLowerAZ l (m ++ u2) hl hlne hheadMU]
    exact ⟨_, rfl⟩
  have hfold : metagraph_parse (u1 ++ l ++ m ++ u2) = (u1, l, u2) := by
    rw [hassoc]
    unfold metagraph_parse
    rw [List.foldl_append, List.foldl_append,
      foldl_abbrevStep_upper_start u1 hu1 _ rfl,
      foldl_abbrevStep_lower l hl hlne _]
    have hmstep : m.foldl abbrevStep
        { start := false, startAbbrev := ([] : List Char) ++ u1,
          edgeAbbrev := ([] : List Char) ++ l, endAbbrev := ([] : List Char) }
        = { start := false, startAbbrev := ([] : List Char) ++ u1,
            edgeAbbrev := ([] : List Char) ++ l, endAbbrev := ([] : List Char) } := by
      rcases hm with rfl | rfl | rfl
      · rfl
      · simp [abbrevStep_marker_gt]
      · simp [abbrevStep_marker_lt]
    rw [List.foldl_append, hmstep, foldl_abbrevStep_upper_end u2 hu2 _ rfl]
    simp
  refine ⟨?_, hfold⟩
  unfold parse_edge_abbrev
  rw [hrunsU]
  obtain ⟨rest, hrest⟩ := hrunsL
  rw [hrest, hfold]

/-- Witness for C10: the two parsers agree on the concrete abbreviation
`CDreg>CD`, both returning `(CD, reg, CD)`. -/
theorem parse_edge_abbrev_eq_metagraph_parse_witness :
    parse_edge_abbrev ("CD".toList ++ "reg".toList ++ ['>'] ++ "CD".toList)
        = some (metagraph_parse ("CD".toList ++ "reg".toList ++ ['>'] ++ "CD".toList)) ∧
      metagraph_parse ("CD".toList ++ "reg".toList ++ ['>'] ++ "CD".toList)
        = ("CD".toList, "reg".toList, "CD".toList) :=
  parse_edge_abbrev_eq_metagraph_parse "CD".toList "reg".toList ['>'] "CD".toList
    (by decide) (by decide) (by decide) (by decide) (by decide) (by decide) (by decide)

/-! ## Node-selector validation (`MatrixFormattedGraph.validate_ids`)

The node table is modelled as the list of its rows `(identifier, label)`
in dense-index order.  Python values appearing in a selector are either
strings or integers. -/

inductive PyVal where
  | str (s : String)
  | int (n : Nat)
  deriving DecidableEq, Repr

inductive Selector where
  | str (s : String)
  | list (l : List PyVal)
  | other
  deriving DecidableEq, Repr

inductive PyError where
  | keyError
  | valueError
  | indexError
  deriving DecidableEq, Repr

/-- Model of the `metanode_idxs` mapping built by `read_node_file`: the
dense indices of all nodes carrying the given type label; `none` models
the `KeyError` raised when the label is not a key. -/
def metanodeIdxs (nodes : List (String × String)) (kind : String) : Option (List Nat) :=
  if (nodes.map Prod.snd).contains kind then
    some ((List.range nodes.length).filter fun i => (nodes.getD i ("", "")).2 == kind)
  else none

/-- Model of the `nid_to_index` dictionary built by `read_node_file`:
node identifier to dense index, the later row winning on duplicate
identifiers (Python dict construction); integer keys are never present,
so they model a `KeyError`. -/
def nidToIndex (nodes : List (String × String)) (v : PyVal) : Option Nat :=
  match v with
  | .int _ => none
  | .str s => ((List.range nodes.length).filter fun i => (nodes.getD i ("", "")).1 == s).getLast?

/-- Model of the list comprehension `[self.nid_to_index[nid] for nid in ids]`:
look each element up in order, raising `KeyError` (`none`) at the first
element that is not a known identifier key. -/
def mapIdsToIdx (nodes : List (String × String)) : List PyVal → Option (List Nat)
  | [] => some []
  | v :: vs =>
    match nidToIndex nodes v, mapIdsToIdx nodes vs with
    | some i, some rest => some (i :: rest)
    | _, _ => none

/-- Model of `MatrixFormattedGraph.validate_ids` (extractor.py 291-306).
A string selector indexes `metanode_idxs` (Python raises `KeyError` when
the label is absent); a list selector is dispatched on the type of its
first element: a string head maps every element through `nid_to_index`
(`KeyError` on any unknown identifier or non-string element), an integer
head returns the list unchanged and unchecked; the empty list raises
`IndexError` at `ids[0]`; any other argument reaches `raise ValueError()`. -/
def validate_ids (nodes : List (String × String)) (sel : Selector) :
    Except PyError (List PyVal) :=
  match sel with
  | .str s =>
    match metanodeIdxs nodes s with
    | some idxs => .ok (idxs.map fun i => .int i)
    | none => .error .keyError
  | .list [] => .error .indexError
  | .list (v :: vs) =>
    match v with
    | .str _ =>
      match mapIdsToIdx nodes (v :: vs) with
      | some idxs => .ok (idxs.map fun i => .int i)
      | none => .error .keyError
    | .int _ => .ok (v :: vs)
  | .other => .error .valueError

theorem nidToIndex_some_iff (nodes : List (String × String)) (v : PyVal) :
    (∃ i, nidToIndex nodes v = some i) ↔ ∃ t, v = .str t ∧ t ∈ nodes.map Prod.fst := by
  cases v with
  | int n => simp [nidToIndex]
  | str s =>
    simp only [nidToIndex]
    constructor
    · rintro ⟨i, hi⟩
      refine ⟨s, rfl, ?_⟩
      have hne : ((List.range nodes.length).filter
          fun i => (nodes.getD i ("", "")).1 == s) ≠ [] := by
        intro h
        rw [h] at hi
        simp at hi
      rw [Ne, List.filter_eq_nil_iff] at hne
      push_neg at hne
      obtain ⟨j, hj, hp⟩ := hne
      rw [List.mem_range] at hj
      rw [List.getD_eq_getElem _ _ hj] at hp
      rw [beq_iff_eq] at hp
      exact List.mem_map.mpr ⟨nodes[j], List.getElem_mem hj, hp⟩
    · rintro ⟨t, ht, hmem⟩
      obtain rfl : s = t := by injection ht
      obtain ⟨p, hp, hfst⟩ := List.mem_map.mp hmem
      obtain ⟨j, hj, rfl⟩ := List.mem_iff_getElem.mp hp
      have hne : ((List.range nodes.length).filter
          fun i => (nodes.getD i ("", "")).1 == s) ≠ [] := by
        rw [Ne, List.filter_eq_nil_iff]
        push_neg
        refine ⟨j, List.mem_range.mpr hj, ?_⟩
        rw [List.getD_eq_getElem _ _ hj, beq_iff_eq]
        exact hfst
      have := List.getLast?_isSome.mpr hne
      rw [Option.isSome_iff_exists] at this
      exact this

theorem mapIdsToIdx_some_iff (nodes : List (String × String)) (l : List PyVal) :
    (∃ out, mapIdsToIdx nodes l = some out) ↔
      ∀ v ∈ l, ∃ i, nidToIndex nodes v = some i := by
  induction l with
  | nil => simp [mapIdsToIdx]
  | cons a t ih =>
    constructor
    · rintro ⟨out, hout⟩
      intro v hv
      rw [mapIdsToIdx] at hout
      rcases hna : nidToIndex nodes a with _ | i
      · rw [hna] at hout
        cases hout
      rcases hnt : mapIdsToIdx nodes t with _ | rest
      · rw [hna, hnt] at hout
        cases hout
      rcases List.mem_cons.mp hv with rfl | hvt
      · exact ⟨i, hna⟩
      · exact ih.mp ⟨rest, hnt⟩ v hvt
    · intro hall
      obtain ⟨i, hna⟩ := hall a (by simp)
      obtain ⟨rest, hnt⟩ := ih.mpr fun v hv => hall v (by simp [hv])
      refine ⟨i :: rest, ?_⟩
      rw [mapIdsToIdx, hna, hnt]

/-- C8 counterexample: with a one-node table, the selector `[5]` is a list
of integers none of which is a valid matrix index, yet `validate_ids`
succeeds and returns the list unchecked instead of failing with the
InvalidSelector error (`ValueError`). -/
theorem validate_ids_counterexample :
    validate_ids [("a", "Gene")] (.list [.int 5]) = .ok [.int 5] ∧
      ¬ (5 : Nat) < ([("a", "Gene")] : List (String × String)).length := by
  constructor
  · rfl
  · decide

/-- C8 (amended): `validate_ids` succeeds exactly when the selector is a
type label occurring in the node table, a list headed by a string all of
whose elements are identifiers present in the node table, or any list
headed by an integer (even when the integers are not valid matrix
indices); and it raises the InvalidSelector error (`ValueError`) exactly
for arguments that are neither strings nor nonempty lists headed by a
string or integer.  Unknown labels and unknown identifiers instead raise
`KeyError`, and the empty list raises `IndexError`. -/
theorem validate_ids_spec (nodes : List (String × String)) (sel : Selector) :
    ((∃ out, validate_ids nodes sel = .ok out) ↔
      (∃ s, sel = .str s ∧ s ∈ nodes.map Prod.snd) ∨
      (∃ s vs, sel = .list (.str s :: vs) ∧
        ∀ v ∈ PyVal.str s :: vs, ∃ t, v = .str t ∧ t ∈ nodes.map Prod.fst) ∨
      (∃ n vs, sel = .list (.int n :: vs))) ∧
    (validate_ids nodes sel = .error .valueError ↔ sel = .other) := by
  cases sel with
  | str s =>
    constructor
    · rw [validate_ids]
      rcases hm : metanodeIdxs nodes s with _ | idxs
      · rw [metanodeIdxs] at hm
        constructor
        · rintro ⟨out, hout⟩
          split at hm
          · cases hm
          · cases hout
        · rintro (⟨s', hs', hmem⟩ | ⟨s', vs, h, _⟩ | ⟨n, vs, h⟩) <;> try cases h
          obtain rfl : s = s' := by injection hs'
          split at hm
          · cases hm
          · rename_i hcon
            rw [List.elem_iff] at hcon
            exact absurd hmem hcon
      · constructor
        · intro _
          left
          refine ⟨s, rfl, ?_⟩
          rw [metanodeIdxs] at hm
          split at hm
          · rename_i hcon
            rwa [List.elem_iff] at hcon
          · cases hm
        · intro _
          exact ⟨_, rfl⟩
    · rw [validate_ids]
      rcases hm : metanodeIdxs nodes s with _ | idxs <;>
        simp
  | other =>
    refine ⟨?_, by simp [validate_ids]⟩
    rw [validate_ids]
    constructor
    · rintro ⟨out, hout⟩
      cases hout
    · rintro (⟨s', h, _⟩ | ⟨s', vs, h, _⟩ | ⟨n, vs, h⟩) <;> cases h
  | list l =>
    cases l with
    | nil =>
      refine ⟨?_, by rw [validate_ids]; simp⟩
      rw [validate_ids]
      constructor
      · rintro ⟨out, hout⟩
        cases hout
      · rintro (⟨s', h, _⟩ | ⟨s', vs, h, _⟩ | ⟨n, vs, h⟩) <;> cases h
    | cons v vs =>
      cases v with
      | str s =>
        constructor
        · rw [validate_ids]
          rcases hmm : mapIdsToIdx nodes (PyVal.str s :: vs) with _ | idxs
          · constructor
            · rintro ⟨out, hout⟩
              cases hout
            · rintro (⟨s', h, _⟩ | ⟨s', vs', heq, hall⟩ | ⟨n, vs', h⟩)
              · cases h
              case' list.cons.str.left.none.mpr.inr.inr.intro.intro => simp at h
              injection heq with h0
              injection h0 with h1 h2
              obtain rfl : s = s' := by injection h1
              subst h2
              have : ∀ w ∈ PyVal.str s :: vs, ∃ i, nidToIndex nodes w = some i := by
                intro w hw
                obtain ⟨t, rfl, htm⟩ := hall w hw
                exact (nidToIndex_some_iff nodes (.str t)).mpr ⟨t, rfl, htm⟩
              obtain ⟨out, hout⟩ := (mapIdsToIdx_some_iff nodes _).mpr this
              rw [hmm] at hout
              cases hout
          · constructor
            · intro _
              right; left
              refine ⟨s, vs, rfl, ?_⟩
              intro w hw
              exact (nidToIndex_some_iff nodes w).mp
                ((mapIdsToIdx_some_iff nodes _).mp ⟨idxs, hmm⟩ w hw)
            · intro _
              exact ⟨_, rfl⟩
        · rw [validate_ids]
          rcases hmm : mapIdsToIdx nodes (PyVal.str s :: vs) with _ | idxs <;> simp
      | int n =>
        refine ⟨?_, by rw [validate_ids]; simp⟩
        rw [validate_ids]
        constructor
        · intro _
          right; right
          exact ⟨n, vs, rfl⟩
        · intro _
          exact ⟨_, rfl⟩

/-- Witness for the amended C8 theorem: with a one-node table, the
selector given by the type label Gene succeeds, and the literal
characterization instantiates. -/
theorem validate_ids_spec_witness :
    ((∃ out, validate_ids [("a", "Gene")] (.str "Gene") = .ok out) ↔
      (∃ s, Selector.str "Gene" = .str s ∧ s ∈ ([("a", "Gene")].map Prod.snd)) ∨
      (∃ s vs, Selector.str "Gene" = .list (.str s :: vs) ∧
        ∀ v ∈ PyVal.str s :: vs, ∃ t, v = .str t ∧ t ∈ ([("a", "Gene")].map Prod.fst)) ∨
      (∃ n vs, Selector.str "Gene" = .list (.int n :: vs))) ∧
    (validate_ids [("a", "Gene")] (.str "Gene") = .error .valueError ↔
      Selector.str "Gene" = .other) :=
  validate_ids_spec [("a", "Gene")] (.str "Gene")

/-! ## Adjacency matrices (`MatrixFormattedGraph.get_adj_matrix` /
`generate_adjacency_matrices`)

The graph is modelled by the node identifier list (dense-index order,
`node_df[':ID']`) and the edge rows `(:START_ID, :END_ID, abbrev)`.
Sparse matrices are modelled as entry functions `Nat → Nat → Nat`. -/

structure MatrixGraph where
  nodeIds : List String
  edgeRows : List (String × String × String)

/-- The `nid_to_index` dictionary of `read_node_file` restricted to string
keys: identifier to dense index, later rows winning on duplicates. -/
def nodeIdx (g : MatrixGraph) (s : String) : Option Nat :=
  ((List.range g.nodeIds.length).filter fun i => g.nodeIds.getD i "" == s).getLast?

/-- Whether `get_adj_matrix` sets entry `(i, j)` for the given metaedge:
some edge row of that abbreviation maps to index pair `(i, j)`, or to
`(j, i)` when the matrix is built undirected. -/
def adjEntry (g : MatrixGraph) (me : String) (directed : Bool) (i j : Nat) : Bool :=
  g.edgeRows.any fun r =>
    r.2.2 == me &&
      ((nodeIdx g r.1 == some i && nodeIdx g r.2.1 == some j) ||
       (!directed && (nodeIdx g r.1 == some j && nodeIdx g r.2.1 == some i)))

/-- Model of `MatrixFormattedGraph.get_adj_matrix`: for each edge row of
the metaedge set entry `(start, end)` to 1, and also `(end, start)` when
not directed.  (Edge rows whose identifiers are unknown raise `KeyError`
in the source; the model leaves them out, and the theorems below do not
depend on such rows.) -/
def get_adj_matrix (g : MatrixGraph) (me : String) (directed : Bool) : Nat → Nat → Nat :=
  fun i j => if adjEntry g me directed i j then 1 else 0

/-- Modelled from the spec: `matrix_tools.get_reverse_directed_edge` is not
among the two source modules.  Per the data model (directed metaedges
implicitly define an inverse metaedge with reversed endpoints) and the
abbreviation convention, the inverse identifier of `U1 l > U2` is
`U2 < l U1`: endpoint codes swapped, marker flipped. -/
def get_reverse_directed_edge (s : String) : String :=
  match runsBy isUpperAZ s.toList, runsBy isLowerAZ s.toList with
  | u1 :: u2 :: _, l :: _ => String.mk (u2 ++ '<' :: (l ++ u1))
  | _, _ => s

/-- Model of `MatrixFormattedGraph.generate_adjacency_matrices`: one cache
entry per metaedge; a metaedge containing `>` is built directed and the
transpose of its (freshly rebuilt) forward matrix is additionally
registered under the inverse identifier; all other metaedges are built
undirected.  The Python dict is modelled as the association list of
assignments in order. -/
def generate_adjacency_matrices (g : MatrixGraph) (metaedges : List String) :
    List (String × (Nat → Nat → Nat)) :=
  metaedges.flatMap fun me =>
    if me.toList.contains '>' then
      [(me, get_adj_matrix g me true),
       (get_reverse_directed_edge me, fun i j => get_adj_matrix g me true j i)]
    else
      [(me, get_adj_matrix g me false)]

/-- Lookup in an association list with Python dict semantics: the most
recent binding of the key wins. -/
def dictLookup {β : Type} (l : List (String × β)) (k : String) : Option β :=
  (l.reverse.find? fun p => p.1 == k).map Prod.snd

theorem bool_adj_sym : ∀ t a b c d : Bool,
    (t && ((a && b) || (!false && (c && d)))) = (t && ((c && d) || (!false && (a && b)))) := by
  decide

theorem any_congr {α : Type} {l : List α} {p q : α → Bool} (h : ∀ r ∈ l, p r = q r) :
    l.any p = l.any q := by
  induction l with
  | nil => rfl
  | cons a t ih =>
    simp only [List.any_cons, h a (by simp)]
    rw [ih fun r hr => h r (by simp [hr])]

theorem adjEntry_undirected_symm (g : MatrixGraph) (me : String) (i j : Nat) :
    adjEntry g me false i j = adjEntry g me false j i := by
  unfold adjEntry
  exact any_congr fun r _ => bool_adj_sym _ _ _ _ _

theorem find?_key_nodup {β : Type} (l : List (String × β)) (k : String) (v : β)
    (hmem : (k, v) ∈ l) (hnd : (l.map Prod.fst).Nodup) :
    l.find? (fun p => p.1 == k) = some (k, v) := by
  induction l with
  | nil => cases hmem
  | cons a t ih =>
    rcases List.mem_cons.mp hmem with rfl | hmt
    · exact List.find?_cons_of_pos t (by simp)
    · have hak : ¬ a.1 = k := by
        intro hak
        have hk : k ∈ t.map Prod.fst := List.mem_map.mpr ⟨(k, v), hmt, rfl⟩
        rw [List.map_cons, List.nodup_cons] at hnd
        exact hnd.1 (hak ▸ hk)
      rw [List.find?_cons_of_neg t (by simp [hak])]
      exact ih hmt ((List.map_cons Prod.fst a t ▸ hnd).of_cons)

theorem dictLookup_eq_of_mem {β : Type} (l : List (String × β)) (k : String) (v : β)
    (hmem : (k, v) ∈ l) (hnd : (l.map Prod.fst).Nodup) : dictLookup l k = some v := by
  unfold dictLookup
  rw [find?_key_nodup l.reverse k v (by simpa using hmem)
    (by rw [List.map_reverse]; exact List.nodup_reverse.mpr hnd)]
  rfl

/-- C6: in the adjacency-matrix build, every undirected metaedge's cached
matrix is symmetric; and for every directed metaedge the cache
additionally contains, under the inverse metaedge's identifier, exactly
the transpose of that metaedge's forward adjacency matrix (stated under
the assumption that the generated cache keys are distinct, since a later
duplicate key would overwrite the entry in the Python dict). -/
theorem generate_adjacency_matrices_spec (g : MatrixGraph) (metaedges : List String)
    (me : String) (hme : me ∈ metaedges)
    (hkeys : ((generate_adjacency_matrices g metaedges).map Prod.fst).Nodup) :
    (me.toList.contains '>' = false →
      dictLookup (generate_adjacency_matrices g metaedges) me
          = some (get_adj_matrix g me false) ∧
        ∀ i j, get_adj_matrix g me false i j = get_adj_matrix g me false j i) ∧
    (me.toList.contains '>' = true →
      dictLookup (generate_adjacency_matrices g metaedges) me
          = some (get_adj_matrix g me true) ∧
      ∃ M, dictLookup (generate_adjacency_matrices g metaedges)
            (get_reverse_directed_edge me) = some M ∧
          ∀ i j, M i j = get_adj_matrix g me true j i) := by
  constructor
  · intro hdir
    constructor
    · refine dictLookup_eq_of_mem _ _ _ ?_ hkeys
      refine List.mem_flatMap.mpr ⟨me, hme, ?_⟩
      rw [if_neg (by rw [hdir]; simp)]
      simp
    · intro i j
      unfold get_adj_matrix
      rw [adjEntry_undirected_symm]
  · intro hdir
    constructor
    · refine dictLookup_eq_of_mem _ _ _ ?_ hkeys
      refine List.mem_flatMap.mpr ⟨me, hme, ?_⟩
      rw [if_pos hdir]
      simp
    · refine ⟨fun i j => get_adj_matrix g me true j i, ?_, fun i j => rfl⟩
      refine dictLookup_eq_of_mem _ _ _ ?_ hkeys
      refine List.mem_flatMap.mpr ⟨me, hme, ?_⟩
      rw [if_pos hdir]
      simp

theorem runsBy_upper_GrG : runsBy isUpperAZ "Gr>G".toList = [['G'], ['G']] := by
  show runsBy isUpperAZ ['G', 'r', '>', 'G'] = [['G'], ['G']]
  rw [runsBy, if_pos (by decide)]
  norm_num [List.takeWhile_cons, List.dropWhile_cons,
    (by decide : isUpperAZ 'r' = false), (by decide : isUpperAZ '>' = false),
    (by decide : isUpperAZ 'G' = true)]
  rw [runsBy, if_neg (by decide), runsBy, if_neg (by decide), runsBy, if_pos (by decide)]
  norm_num [List.takeWhile_nil, List.dropWhile_nil]
  rw [runsBy]

theorem runsBy_lower_GrG : runsBy isLowerAZ "Gr>G".toList = [['r']] := by
  show runsBy isLowerAZ ['G', 'r', '>', 'G'] = [['r']]
  rw [runsBy, if_neg (by decide), runsBy, if_pos (by decide)]
  norm_num [List.takeWhile_cons, List.dropWhile_cons,
    (by decide : isLowerAZ '>' = false), (by decide : isLowerAZ 'G' = false)]
  rw [runsBy, if_neg (by decide), runsBy, if_neg (by decide), runsBy]

theorem reverse_GrG : get_reverse_directed_edge "Gr>G" = "G<rG" := by
  unfold get_reverse_directed_edge
  rw [runsBy_upper_GrG, runsBy_lower_GrG]
  rfl

/-- Witness for C6: a two-node graph with the single directed metaedge
`Gr>G`; the cache then holds the forward matrix under `Gr>G` and its
transpose under the inverse identifier. -/
theorem generate_adjacency_matrices_spec_witness :
    ("Gr>G".toList.contains '>' = false →
      dictLookup (generate_adjacency_matrices ⟨["g1", "g2"], [("g1", "g2", "Gr>G")]⟩
          ["Gr>G"]) "Gr>G"
        = some (get_adj_matrix ⟨["g1", "g2"], [("g1", "g2", "Gr>G")]⟩ "Gr>G" false) ∧
      ∀ i j, get_adj_matrix ⟨["g1", "g2"], [("g1", "g2", "Gr>G")]⟩ "Gr>G" false i j
        = get_adj_matrix ⟨["g1", "g2"], [("g1", "g2", "Gr>G")]⟩ "Gr>G" false j i) ∧
    ("Gr>G".toList.contains '>' = true →
      dictLookup (generate_adjacency_matrices ⟨["g1", "g2"], [("g1", "g2", "Gr>G")]⟩
          ["Gr>G"]) "Gr>G"
        = some (get_adj_matrix ⟨["g1", "g2"], [("g1", "g2", "Gr>G")]⟩ "Gr>G" true) ∧
      ∃ M, dictLookup (generate_adjacency_matrices ⟨["g1", "g2"], [("g1", "g2", "Gr>G")]⟩
            ["Gr>G"]) (get_reverse_directed_edge "Gr>G") = some M ∧
          ∀ i j, M i j = get_adj_matrix ⟨["g1", "g2"], [("g1", "g2", "Gr>G")]⟩ "Gr>G" true j i) :=
  generate_adjacency_matrices_spec ⟨["g1", "g2"], [("g1", "g2", "Gr>G")]⟩ ["Gr>G"] "Gr>G"
    (by simp)
    (by
      have hk : (generate_adjacency_matrices ⟨["g1", "g2"], [("g1", "g2", "Gr>G")]⟩
          ["Gr>G"]).map Prod.fst = ["Gr>G", get_reverse_directed_edge "Gr>G"] := rfl
      rw [hk, reverse_GrG]
      decide)

/-! ## Degree extraction (`MatrixFormattedGraph.extract_degrees`)

Python's `sorted` on column names is lexicographic by code point, modelled
as lexicographic order on the character lists. -/

def lexLe : List Char → List Char → Bool
  | [], _ => true
  | _ :: _, [] => false
  | a :: as, b :: bs => if a < b then true else if b < a then false else lexLe as bs

def strLe (s t : String) : Bool := lexLe s.toList t.toList

theorem char_lt_iff (a b : Char) : a < b ↔ a.toNat < b.toNat := by
  rw [Char.lt_def, UInt32.lt_def, BitVec.lt_def]
  exact Iff.rfl

theorem char_eq_of_toNat {a b : Char} (h : a.toNat = b.toNat) : a = b := by
  apply Char.ext
  apply UInt32.eq_of_toBitVec_eq
  exact BitVec.toNat_injective h

theorem lexLe_total : ∀ as bs, lexLe as bs = true ∨ lexLe bs as = true := by
  intro as
  induction as with
  | nil => intro bs; left; rfl
  | cons a t ih =>
    intro bs
    cases bs with
    | nil => right; rfl
    | cons b u =>
      rw [lexLe, lexLe]
      by_cases hab : a < b
      · left
        rw [if_pos hab]
      · by_cases hba : b < a
        · right
          rw [if_pos hba]
        · rw [if_neg hab, if_neg hba, if_neg hba, if_neg hab]
          exact ih u

theorem lexLe_trans : ∀ as bs cs, lexLe as bs = true → lexLe bs cs = true →
    lexLe as cs = true := by
  intro as
  induction as with
  | nil => intro bs cs _ _; rfl
  | cons a t ih =>
    intro bs cs h1 h2
    cases bs with
    | nil => cases h1
    | cons b u =>
      cases cs with
      | nil => cases h2
      | cons c v =>
        rw [lexLe] at h1 h2 ⊢
        by_cases hab : a < b
        · by_cases hbc : b < c
          · rw [if_pos (lt_trans hab hbc)]
          · by_cases hcb : c < b
            · rw [if_neg hbc, if_pos hcb] at h2
              cases h2
            · have hbc' : b = c := le_antisymm (not_lt.mp hcb) (not_lt.mp hbc)
              subst hbc'
              rw [if_pos hab]
        · by_cases hba : b < a
          · rw [if_neg hab, if_pos hba] at h1
            cases h1
          · have hab' : a = b := le_antisymm (not_lt.mp hba) (not_lt.mp hab)
            subst hab'
            rw [if_neg hab, if_neg hba] at h1
            by_cases hac : a < c
            · rw [if_pos hac]
            · by_cases hca : c < a
              · rw [if_neg hac, if_pos hca] at h2
                cases h2
              · rw [if_neg hac, if_neg hca] at h2 ⊢
                exact ih u v h1 h2

/-- A metaedge of the metagraph as `extract_degrees` consumes it: endpoint
kinds, forward abbreviation (`edge.get_abbrev()`), and inverse
abbreviation (`edge.inverse.get_abbrev()`).  The hetio metagraph object
itself is external to the two source modules. -/
structure MGEdge where
  src : String
  tgt : String
  abb : String
  invAbb : String
  deriving DecidableEq, Repr

/-- Model of the local helper `get_edge_abbrev` in `extract_degrees`:
the forward abbreviation when the kind is the edge's source (checked
first), the inverse abbreviation when it is the target, else `None`. -/
def get_edge_abbrev (kind : String) (e : MGEdge) : Option String :=
  if kind = e.src then some e.abb
  else if kind = e.tgt then some e.invAbb
  else none

/-- The value `extract_degrees` computes per node: the diagonal of the
squared adjacency matrix, `(A @ A).diagonal()[i]`. -/
def diagAA (n : Nat) (A : Nat → Nat → Nat) (i : Nat) : Nat :=
  ∑ j ∈ Finset.range n, A i j * A j i

/-- The degree of node `i` under an adjacency matrix: its row sum. -/
def rowDegree (n : Nat) (A : Nat → Nat → Nat) (i : Nat) : Nat :=
  ∑ j ∈ Finset.range n, A i j

/-- Pandas column assignment `result[name] = series`: overwrite the values
when the column exists, else append a new column. -/
def upsertCol {β : Type} (cols : List (String × β)) (key : String) (val : β) :
    List (String × β) :=
  if cols.any (fun p => p.1 == key) then
    cols.map fun p => if p.1 == key then (p.1, val) else p
  else cols ++ [(key, val)]

/-- One iteration of the per-edge loop of `extract_degrees`: assign the
start-side degree column (when the edge touches the start metatype) and
then the end-side degree column (when it touches the end metatype).  A
start-side column reads the row's start index, an end-side column the
row's end index. -/
def degreeStep (n : Nat) (adj : String → Nat → Nat → Nat) (startType endType : String)
    (cols : List (String × (Nat × Nat → Nat))) (e : MGEdge) :
    List (String × (Nat × Nat → Nat)) :=
  let cols1 :=
    match get_edge_abbrev startType e with
    | some a => upsertCol cols a (fun p => diagAA n (adj e.abb) p.1)
    | none => cols
  match get_edge_abbrev endType e with
  | some a => upsertCol cols1 a (fun p => diagAA n (adj e.abb) p.2)
  | none => cols1

/-- The per-edge loop of `extract_degrees` over all metagraph edges. -/
def degreeCols (n : Nat) (adj : String → Nat → Nat → Nat) (medges : List MGEdge)
    (startType endType : String) : List (String × (Nat × Nat → Nat)) :=
  medges.foldl (degreeStep n adj startType endType) []

/-- The column assignments one metagraph edge contributes, in order. -/
def edgeAssignments (n : Nat) (adj : String → Nat → Nat → Nat) (startType endType : String)
    (e : MGEdge) : List (String × (Nat × Nat → Nat)) :=
  (match get_edge_abbrev startType e with
   | some a => [(a, fun p => diagAA n (adj e.abb) p.1)]
   | none => []) ++
  (match get_edge_abbrev endType e with
   | some a => [(a, fun p => diagAA n (adj e.abb) p.2)]
   | none => [])

/-- All assignments the `extract_degrees` loop performs, in order. -/
def colAssignments (n : Nat) (adj : String → Nat → Nat → Nat) (medges : List MGEdge)
    (startType endType : String) : List (String × (Nat × Nat → Nat)) :=
  medges.flatMap (edgeAssignments n adj startType endType)

/-- Result of `extract_degrees`: the id pairs and index pairs of the rows
(Cartesian product order, from `pd.MultiIndex.from_product`), and the
degree columns sorted lexicographically by name. -/
structure DegTable where
  idRows : List (String × String)
  idxRows : List (Nat × Nat)
  cols : List (String × (Nat × Nat → Nat))

/-- Model of `MatrixFormattedGraph.extract_degrees`. -/
def extract_degrees (n : Nat) (adj : String → Nat → Nat → Nat) (medges : List MGEdge)
    (startType endType : String) (startIds endIds : List String)
    (startIdxs endIdxs : List Nat) : DegTable :=
  { idRows := startIds.flatMap fun s => endIds.map fun e => (s, e)
    idxRows := startIdxs.flatMap fun si => endIdxs.map fun ei => (si, ei)
    cols := List.insertionSort (fun a b => strLe a.1 b.1 = true)
      (degreeCols n adj medges startType endType) }

theorem upsertCol_fresh {β : Type} (cols : List (String × β)) (a : String) (v : β)
    (h : ∀ p ∈ cols, p.1 ≠ a) : upsertCol cols a v = cols ++ [(a, v)] := by
  unfold upsertCol
  rw [if_neg]
  intro hc
  rw [List.any_eq_true] at hc
  obtain ⟨p, hp, hpa⟩ := hc
  exact h p hp (by simpa using hpa)

theorem degreeStep_fresh (n : Nat) (adj : String → Nat → Nat → Nat)
    (startType endType : String) (cols : List (String × (Nat × Nat → Nat))) (e : MGEdge)
    (h : ((cols ++ edgeAssignments n adj startType endType e).map Prod.fst).Nodup) :
    degreeStep n adj startType endType cols e
      = cols ++ edgeAssignments n adj startType endType e := by
  unfold degreeStep
  unfold edgeAssignments at h ⊢
  rcases hs : get_edge_abbrev startType e with _ | a1 <;>
    rcases he : get_edge_abbrev endType e with _ | a2 <;>
      rw [hs, he] at h <;> dsimp only at h ⊢
  · simp
  · simp only [List.nil_append] at h ⊢
    rw [List.map_append, List.nodup_append] at h
    refine upsertCol_fresh cols a2 _ fun p hp hpa => ?_
    exact h.2.2 (List.mem_map.mpr ⟨p, hp, rfl⟩) (by simp [hpa])
  · simp only [List.append_nil] at h ⊢
    rw [List.map_append, List.nodup_append] at h
    refine upsertCol_fresh cols a1 _ fun p hp hpa => ?_
    exact h.2.2 (List.mem_map.mpr ⟨p, hp, rfl⟩) (by simp [hpa])
  · rw [List.map_append, List.nodup_append] at h
    have ha1 : ∀ p ∈ cols, p.1 ≠ a1 := fun p hp hpa =>
      h.2.2 (List.mem_map.mpr ⟨p, hp, rfl⟩) (by simp [hpa])
    have ha2 : ∀ p ∈ cols, p.1 ≠ a2 := fun p hp hpa =>
      h.2.2 (List.mem_map.mpr ⟨p, hp, rfl⟩) (by simp [hpa])
    have ha12 : a1 ≠ a2 := by
      have := h.2.1
      simp only [List.cons_append, List.map_cons, List.nodup_cons] at this
      intro heq
      exact this.1 (by simp [heq])
    rw [upsertCol_fresh cols a1 _ ha1, upsertCol_fresh _ a2 _ ?_]
    · simp
    · intro p hp
      rcases List.mem_append.mp hp with hpc | hpe
      · exact ha2 p hpc
      · simp only [List.mem_singleton] at hpe
        subst hpe
        exact ha12

theorem foldl_degreeStep_fresh (n : Nat) (adj : String → Nat → Nat → Nat)
    (startType endType : String) :
    ∀ (medges : List MGEdge) (cols : List (String × (Nat × Nat → Nat))),
      ((cols ++ medges.flatMap (edgeAssignments n adj startType endType)).map Prod.fst).Nodup →
      medges.foldl (degreeStep n adj startType endType) cols
        = cols ++ medges.flatMap (edgeAssignments n adj startType endType) := by
  intro medges
  induction medges with
  | nil => simp
  | cons e rest ih =>
    intro cols h
    rw [List.flatMap_cons] at h ⊢
    rw [← List.append_assoc] at h ⊢
    rw [List.foldl_cons]
    have hpre : ((cols ++ edgeAssignments n adj startType endType e).map Prod.fst).Nodup := by
      refine List.Nodup.sublist ?_ h
      exact (List.sublist_append_left _ _).map Prod.fst
    rw [degreeStep_fresh n adj startType endType cols e hpre]
    exact ih _ h

theorem degreeCols_eq_colAssignments (n : Nat) (adj : String → Nat → Nat → Nat)
    (medges : List MGEdge) (startType endType : String)
    (hnd : ((colAssignments n adj medges startType endType).map Prod.fst).Nodup) :
    degreeCols n adj medges startType endType
      = colAssignments n adj medges startType endType := by
  unfold degreeCols colAssignments at *
  have := foldl_degreeStep_fresh n adj startType endType medges []
    (by simpa using hnd)
  simpa using this

theorem diagAA_eq_rowDegree (n : Nat) (A : Nat → Nat → Nat)
    (hsym : ∀ i j, A i j = A j i) (hb : ∀ i j, A i j ≤ 1) (i : Nat) :
    diagAA n A i = rowDegree n A i := by
  unfold diagAA rowDegree
  refine Finset.sum_congr rfl fun j _ => ?_
  rw [← hsym i j]
  rcases Nat.le_one_iff_eq_zero_or_eq_one.mp (hb i j) with h0 | h1
  · rw [h0]
  · rw [h1]

/-- The adjacency lookup `self.adj_matrices[abbrev]` backed by the cache
built by `generate_adjacency_matrices` (zero matrix standing in for the
`KeyError` of a missing key, which the theorems below never hit). -/
def adjFromCache (cache : List (String × (Nat → Nat → Nat))) (me : String) :
    Nat → Nat → Nat :=
  (dictLookup cache me).getD fun _ _ => 0

/-- C9 counterexample: a two-node graph whose only metaedge `Gr>G` is
directed, with the single edge g1→g2.  In `extract_degrees` the degree
column `Gr>G` assigns node g1 (row of index pair `(0, 1)`) the value
`(A @ A).diagonal()[0] = 0`, but the degree of g1 under that metaedge
(its row sum in the adjacency matrix) is 1 — the table entry is not the
node's degree. -/
theorem extract_degrees_counterexample :
    ((dictLookup (extract_degrees 2
        (adjFromCache (generate_adjacency_matrices
          ⟨["g1", "g2"], [("g1", "g2", "Gr>G")]⟩ ["Gr>G"]))
        [⟨"Gene", "Gene", "Gr>G", "G<rG"⟩] "Gene" "Gene"
        ["g1", "g2"] ["g1", "g2"] [0, 1] [0, 1]).cols "Gr>G").map
      (fun f => f (0, 1))) = some 0 ∧
    rowDegree 2 (adjFromCache (generate_adjacency_matrices
        ⟨["g1", "g2"], [("g1", "g2", "Gr>G")]⟩ ["Gr>G"]) "Gr>G") 0 = 1 ∧
    (0 : Nat) ≠ 1 := by
  rw [show generate_adjacency_matrices ⟨["g1", "g2"], [("g1", "g2", "Gr>G")]⟩ ["Gr>G"]
      = [("Gr>G", get_adj_matrix ⟨["g1", "g2"], [("g1", "g2", "Gr>G")]⟩ "Gr>G" true),
         (get_reverse_directed_edge "Gr>G",
          fun i j => get_adj_matrix ⟨["g1", "g2"], [("g1", "g2", "Gr>G")]⟩ "Gr>G" true j i)]
      from rfl, reverse_GrG]
  refine ⟨?_, ?_, by decide⟩
  · decide
  · decide

/-- C9 (amended): for a valid start and end selection, `extract_degrees`
returns one row per (start id, end id) pair in Cartesian-product order,
with the degree columns sorted lexicographically by name after the two id
columns; for each metaedge incident to the start (resp. end) metatype
there is a column under the corresponding abbreviation whose value at
every row is the diagonal entry of the squared adjacency matrix
`(A @ A).diagonal()` at the row's start (resp. end) index — which equals
the node's degree whenever that metaedge's matrix is symmetric with 0/1
entries (all undirected metaedges), but not in general for directed
metaedges.  Stated under distinctness of the produced column names (a
duplicate name would be overwritten by a later assignment). -/
theorem extract_degrees_spec (n : Nat) (adj : String → Nat → Nat → Nat)
    (medges : List MGEdge) (startType endType : String) (startIds endIds : List String)
    (startIdxs endIdxs : List Nat)
    (hnd : ((colAssignments n adj medges startType endType).map Prod.fst).Nodup) :
    (extract_degrees n adj medges startType endType startIds endIds
        startIdxs endIdxs).idRows
      = startIds.flatMap (fun s => endIds.map fun e => (s, e)) ∧
    (extract_degrees n adj medges startType endType startIds endIds
        startIdxs endIdxs).idxRows
      = startIdxs.flatMap (fun si => endIdxs.map fun ei => (si, ei)) ∧
    (extract_degrees n adj medges startType endType startIds endIds
        startIdxs endIdxs).cols.Pairwise (fun a b => strLe a.1 b.1 = true) ∧
    (∀ e ∈ medges, ∀ a : String,
      (get_edge_abbrev startType e = some a →
        ∃ f, dictLookup (extract_degrees n adj medges startType endType startIds endIds
            startIdxs endIdxs).cols a = some f ∧
          (∀ p : Nat × Nat, f p = diagAA n (adj e.abb) p.1) ∧
          ((∀ i j, adj e.abb i j = adj e.abb j i) → (∀ i j, adj e.abb i j ≤ 1) →
            ∀ p : Nat × Nat, f p = rowDegree n (adj e.abb) p.1)) ∧
      (get_edge_abbrev endType e = some a →
        ∃ f, dictLookup (extract_degrees n adj medges startType endType startIds endIds
            startIdxs endIdxs).cols a = some f ∧
          (∀ p : Nat × Nat, f p = diagAA n (adj e.abb) p.2) ∧
          ((∀ i j, adj e.abb i j = adj e.abb j i) → (∀ i j, adj e.abb i j ≤ 1) →
            ∀ p : Nat × Nat, f p = rowDegree n (adj e.abb) p.2))) := by
  have hperm : (extract_degrees n adj medges startType endType startIds endIds
      startIdxs endIdxs).cols.Perm (colAssignments n adj medges startType endType) := by
    show (List.insertionSort _ _).Perm _
    rw [degreeCols_eq_colAssignments n adj medges startType endType hnd]
    exact List.perm_insertionSort _ _
  have hndcols : ((extract_degrees n adj medges startType endType startIds endIds
      startIdxs endIdxs).cols.map Prod.fst).Nodup :=
    ((hperm.map Prod.fst).nodup_iff).mpr hnd
  refine ⟨rfl, rfl, ?_, ?_⟩
  · haveI : IsTotal (String × (Nat × Nat → Nat)) (fun a b => strLe a.1 b.1 = true) :=
      ⟨fun a b => lexLe_total a.1.toList b.1.toList⟩
    haveI : IsTrans (String × (Nat × Nat → Nat)) (fun a b => strLe a.1 b.1 = true) :=
      ⟨fun a b c => lexLe_trans a.1.toList b.1.toList c.1.toList⟩
    exact List.sorted_insertionSort _ _
  · intro e he a
    constructor
    · intro hs
      refine ⟨fun p => diagAA n (adj e.abb) p.1, ?_, fun p => rfl, ?_⟩
      · refine dictLookup_eq_of_mem _ _ _ ?_ hndcols
        rw [hperm.mem_iff]
        refine List.mem_flatMap.mpr ⟨e, he, ?_⟩
        unfold edgeAssignments
        rw [hs]
        exact List.mem_append_left _ (by simp)
      · intro hsym hb p
        exact diagAA_eq_rowDegree n (adj e.abb) hsym hb p.1
    · intro hend
      refine ⟨fun p => diagAA n (adj e.abb) p.2, ?_, fun p => rfl, ?_⟩
      · refine dictLookup_eq_of_mem _ _ _ ?_ hndcols
        rw [hperm.mem_iff]
        refine List.mem_flatMap.mpr ⟨e, he, ?_⟩
        unfold edgeAssignments
        rw [hend]
        exact List.mem_append_right _ (by simp)
      · intro hsym hb p
        exact diagAA_eq_rowDegree n (adj e.abb) hsym hb p.2

/-- Witness for the amended C9 theorem: a Gene–Anatomy metaedge `GaA`
between the start type Gene and the end type Anatomy produces the two
distinct columns `GaA` and `AaG`. -/
theorem extract_degrees_spec_witness :
    (extract_degrees 2 (fun _ _ _ => 0) [⟨"Gene", "Anat", "GaA", "AaG"⟩] "Gene" "Anat"
        ["g1"] ["a1"] [0] [1]).idRows = ["g1"].flatMap (fun s => ["a1"].map fun e => (s, e)) ∧
    (extract_degrees 2 (fun _ _ _ => 0) [⟨"Gene", "Anat", "GaA", "AaG"⟩] "Gene" "Anat"
        ["g1"] ["a1"] [0] [1]).idxRows = [0].flatMap (fun si => [1].map fun ei => (si, ei)) ∧
    (extract_degrees 2 (fun _ _ _ => 0) [⟨"Gene", "Anat", "GaA", "AaG"⟩] "Gene" "Anat"
        ["g1"] ["a1"] [0] [1]).cols.Pairwise (fun a b => strLe a.1 b.1 = true) ∧
    (∀ e ∈ [(⟨"Gene", "Anat", "GaA", "AaG"⟩ : MGEdge)], ∀ a : String,
      (get_edge_abbrev "Gene" e = some a →
        ∃ f, dictLookup (extract_degrees 2 (fun _ _ _ => 0) [⟨"Gene", "Anat", "GaA", "AaG"⟩]
            "Gene" "Anat" ["g1"] ["a1"] [0] [1]).cols a = some f ∧
          (∀ p : Nat × Nat, f p = diagAA 2 ((fun _ _ _ => 0 : String → Nat → Nat → Nat)
              e.abb) p.1) ∧
          ((∀ i j, (fun _ _ _ => 0 : String → Nat → Nat → Nat) e.abb i j
              = (fun _ _ _ => 0 : String → Nat → Nat → Nat) e.abb j i) →
           (∀ i j, (fun _ _ _ => 0 : String → Nat → Nat → Nat) e.abb i j ≤ 1) →
            ∀ p : Nat × Nat, f p = rowDegree 2 ((fun _ _ _ => 0 : String → Nat → Nat → Nat)
              e.abb) p.1)) ∧
      (get_edge_abbrev "Anat" e = some a →
        ∃ f, dictLookup (extract_degrees 2 (fun _ _ _ => 0) [⟨"Gene", "Anat", "GaA", "AaG"⟩]
            "Gene" "Anat" ["g1"] ["a1"] [0] [1]).cols a = some f ∧
          (∀ p : Nat × Nat, f p = diagAA 2 ((fun _ _ _ => 0 : String → Nat → Nat → Nat)
              e.abb) p.2) ∧
          ((∀ i j, (fun _ _ _ => 0 : String → Nat → Nat → Nat) e.abb i j
              = (fun _ _ _ => 0 : String → Nat → Nat → Nat) e.abb j i) →
           (∀ i j, (fun _ _ _ => 0 : String → Nat → Nat → Nat) e.abb i j ≤ 1) →
            ∀ p : Nat × Nat, f p = rowDegree 2 ((fun _ _ _ => 0 : String → Nat → Nat → Nat)
              e.abb) p.2))) :=
  extract_degrees_spec 2 (fun _ _ _ => 0) [⟨"Gene", "Anat", "GaA", "AaG"⟩] "Gene" "Anat"
    ["g1"] ["a1"] [0] [1] (by decide)

/-! ## DWWC extraction (`MatrixFormattedGraph.extract_dwwc`)

Degree-weighted matrices are modelled as entry functions `Nat → Nat → ℚ`
(the source uses floating-point sparse matrices; only the structure of the
computation matters for the claim). -/

/-- One multiplication step of the matrix chain product. -/
def matMulQ (n : Nat) (A B : Nat → Nat → ℚ) : Nat → Nat → ℚ :=
  fun i j => ∑ k ∈ Finset.range n, A i k * B k j

/-- The chain product of a list of matrices, multiplied left to right
(spec §4.4); the empty chain is the identity. -/
def chainProduct (n : Nat) : List (Nat → Nat → ℚ) → (Nat → Nat → ℚ)
  | [] => fun i j => if i = j then 1 else 0
  | M :: Ms => Ms.foldl (matMulQ n) M

/-- Modelled from the spec: `matrix_tools.get_path` is not under src/; it
resolves a metapath identifier to the stored ordered metaedge
abbreviation sequence of the metapaths dictionary. -/
def get_path (mpInfo : List (String × List String)) (mp : String) : List String :=
  ((mpInfo.reverse.find? fun p => p.1 == mp).map Prod.snd).getD []

/-- Modelled from the spec: `matrix_tools.get_matrices_to_multiply`
resolves a metaedge abbreviation sequence to the corresponding ordered
list of degree-weighted matrices. -/
def get_matrices_to_multiply (path : List String) (W : String → Nat → Nat → ℚ) :
    List (Nat → Nat → ℚ) :=
  path.map W

/-- The keyword-argument sets built by the two consecutive loops of
`extract_dwwc`: the first loop passes the whole weighted-matrix mapping
under `matrices`, the second passes the resolved matrix list under
`to_multiply`. -/
inductive DwwcArg where
  | withMatrices (path : List String) (matrices : String → Nat → Nat → ℚ)
  | withToMultiply (path : List String) (toMultiply : List (Nat → Nat → ℚ))

/-- Modelled from the spec: `matrix_tools.count_walks` is not under src/;
per §4.4 the walk count resolves the metapath's ordered weighted-matrix
sequence (when handed the mapping) and computes the raw chain product. -/
def count_walks (n : Nat) : DwwcArg → (Nat → Nat → ℚ)
  | .withMatrices path matrices => chainProduct n (path.map matrices)
  | .withToMultiply _ ms => chainProduct n ms

/-- Modelled from the spec: the external `parallel_process` collaborator
applies the function to each of the argument sets and returns the results
in input order regardless of completion order. -/
def parallel_process {β : Type} (f : DwwcArg → β) (args : List DwwcArg) : List β :=
  args.map f

/-- Model of `MatrixFormattedGraph.extract_dwwc` composed with
`process_extraction_results` (for already validated and resolved start
and end index selections): both argument-building loops of the source run
— the argument list has twice as many entries as requested metapaths —
the parallel results return in input order, and column `i` of the table
is paired with result `i`, the first-loop entry of `metapaths[i]`.
Columns are keyed by metapath identifier in requested order; each
column's rows are the restricted product entries over
startIdxs × endIdxs (`mt.to_series` unpivoting, modelled from the spec). -/
def extract_dwwc (n : Nat) (mpInfo : List (String × List String))
    (W : String → Nat → Nat → ℚ) (metapaths : List String)
    (startIdxs endIdxs : List Nat) : List (String × List ℚ) :=
  let args :=
    (metapaths.map fun mp => DwwcArg.withMatrices (get_path mpInfo mp) W) ++
    (metapaths.map fun mp => DwwcArg.withToMultiply (get_path mpInfo mp)
      (get_matrices_to_multiply (get_path mpInfo mp) W))
  let result := parallel_process (count_walks n) args
  (List.range metapaths.length).map fun i =>
    (metapaths.getD i "",
     startIdxs.flatMap fun si => endIdxs.map fun ei =>
       (result.getD i fun _ _ => 0) si ei)

/-- C5: the table returned by `extract_dwwc` has exactly one feature
column per requested metapath, named by that metapath's identifier, in
the requested order, and the values of column `i` are the entries of the
chain product of that same metapath's resolved weighted-matrix sequence
at the selected row index pairs — worker outputs are paired with their
input index (the doubled argument list notwithstanding, the first-loop
entry for `metapaths[i]` computes exactly that metapath's chain
product). -/
theorem extract_dwwc_spec (n : Nat) (mpInfo : List (String × List String))
    (W : String → Nat → Nat → ℚ) (metapaths : List String)
    (startIdxs endIdxs : List Nat) :
    (extract_dwwc n mpInfo W metapaths startIdxs endIdxs).length = metapaths.length ∧
    ∀ i, i < metapaths.length →
      (extract_dwwc n mpInfo W metapaths startIdxs endIdxs).getD i ("", [])
        = (metapaths.getD i "",
           startIdxs.flatMap fun si => endIdxs.map fun ei =>
             chainProduct n
               (get_matrices_to_multiply (get_path mpInfo (metapaths.getD i "")) W) si ei) := by
  constructor
  · simp [extract_dwwc]
  · intro i hi
    unfold extract_dwwc
    have hlen : i < ((List.range metapaths.length).map (fun i =>
        ((metapaths.getD i ""),
         startIdxs.flatMap fun si => endIdxs.map fun ei =>
           ((parallel_process (count_walks n)
             ((metapaths.map fun mp => DwwcArg.withMatrices (get_path mpInfo mp) W) ++
              (metapaths.map fun mp => DwwcArg.withToMultiply (get_path mpInfo mp)
                (get_matrices_to_multiply (get_path mpInfo mp) W)))).getD i
             fun _ _ => 0) si ei))).length := by
      simpa using hi
    rw [List.getD_eq_getElem _ _ hlen]
    rw [List.getElem_map]
    rw [List.getElem_range]
    refine Prod.ext rfl ?_
    show (startIdxs.flatMap fun si => endIdxs.map fun ei => _) = _
    have hresult : (parallel_process (count_walks n)
        ((metapaths.map fun mp => DwwcArg.withMatrices (get_path mpInfo mp) W) ++
         (metapaths.map fun mp => DwwcArg.withToMultiply (get_path mpInfo mp)
           (get_matrices_to_multiply (get_path mpInfo mp) W)))).getD i (fun _ _ => 0)
        = chainProduct n (get_matrices_to_multiply (get_path mpInfo (metapaths.getD i "")) W) := by
      unfold parallel_process
      rw [List.getD_eq_getElem _ _ (by simpa using Nat.lt_of_lt_of_le hi (by simp))]
      rw [List.getElem_map]
      rw [List.getElem_append_left (by simpa using hi)]
      rw [List.getElem_map]
      rw [count_walks]
      rw [List.getD_eq_getElem _ _ hi]
      rfl
    rw [hresult]

/-- Witness for C5: a single requested metapath `CbGaD` of two metaedges
with a constant weighted matrix; column 0 of the table is that metapath's
chain product restricted to the selection. -/
theorem extract_dwwc_spec_witness :
    (extract_dwwc 1 [("CbGaD", ["CbG", "GaD"])] (fun _ _ _ => 2) ["CbGaD"] [0] [0]).getD 0 ("", [])
      = (["CbGaD"].getD 0 "",
         [0].flatMap fun si => [0].map fun ei =>
           chainProduct 1
             (get_matrices_to_multiply
               (get_path [("CbGaD", ["CbG", "GaD"])] (["CbGaD"].getD 0 ""))
               (fun _ _ _ => 2)) si ei) :=
  (extract_dwwc_spec 1 [("CbGaD", ["CbG", "GaD"])] (fun _ _ _ => 2) ["CbGaD"] [0] [0]).2
    0 (by decide)

/-! ## Permutation engine (`graph_tools.permute_edges`)

Node identifiers are opaque hashable values in the source; they are
modelled as `Nat`.  The Python `set` companion of the edge list is a
`Finset`; the statistics are exact rationals (the source uses
floating-point division; only equality of like computations matters for
the claims). -/

/-- One window record of the permutation statistics. -/
structure PermStat where
  cumulativeAttempts : Nat
  attempts : Nat
  complete : ℚ
  unchanged : ℚ
  selfLoop : ℚ
  duplicate : ℚ
  undirectedDuplicate : ℚ
  excluded : ℚ
  deriving DecidableEq, Repr

/-- Mutable state of the permutation loop: the edge list, the companion
membership set, the four rejection counters of the current window, and
the emitted statistics. -/
structure PermState where
  edgeList : List (Nat × Nat)
  edgeSet : Finset (Nat × Nat)
  countSelfLoop : Nat
  countDuplicate : Nat
  countUndirDup : Nat
  countExcluded : Nat
  stats : List PermStat
  deriving DecidableEq

inductive RejectReason where
  | selfLoop
  | duplicate
  | undirDup
  | excluded
  deriving DecidableEq, Repr

/-- The four validity checks on a recombined candidate edge, in source
order: self-loop, already present in the current edge set, reverse
orientation present when the edge type is undirected, in the exclusion
set. -/
def checkEdge (directed : Bool) (edgeSet excluded : Finset (Nat × Nat))
    (e : Nat × Nat) : Option RejectReason :=
  if e.1 = e.2 then some .selfLoop
  else if e ∈ edgeSet then some .duplicate
  else if directed = false ∧ (e.2, e.1) ∈ edgeSet then some .undirDup
  else if e ∈ excluded then some .excluded
  else none

/-- Bump the counter of the given rejection reason. -/
def bumpCounter (st : PermState) : RejectReason → PermState
  | .selfLoop => { st with countSelfLoop := st.countSelfLoop + 1 }
  | .duplicate => { st with countDuplicate := st.countDuplicate + 1 }
  | .undirDup => { st with countUndirDup := st.countUndirDup + 1 }
  | .excluded => { st with countExcluded := st.countExcluded + 1 }

/-- One swap attempt at the two drawn positions: read the two edges, form
the two recombinations, check both in source order (the first failing
check bumps one counter and rejects the whole swap, leaving list and set
untouched), and on acceptance update the two list positions and the
membership set together.  Out-of-range or equal positions leave the
state unchanged; the source never produces them (it redraws until the
two indices differ and draws below the list length). -/
def applyAttempt (directed : Bool) (excluded : Finset (Nat × Nat))
    (st : PermState) (i0 i1 : Nat) : PermState :=
  match st.edgeList[i0]?, st.edgeList[i1]? with
  | some e0, some e1 =>
    if i0 = i1 then st
    else
      match checkEdge directed st.edgeSet excluded (e0.1, e1.2) with
      | some r => bumpCounter st r
      | none =>
        match checkEdge directed st.edgeSet excluded (e1.1, e0.2) with
        | some r => bumpCounter st r
        | none =>
          { st with
            edgeList := (st.edgeList.set i0 (e0.1, e1.2)).set i1 (e1.1, e0.2)
            edgeSet := insert (e1.1, e0.2)
              (insert (e0.1, e1.2) ((st.edgeSet.erase e0).erase e1)) }
  | _, _ => st

/-- The reporting checkpoints
`print_at = list(range(step, n_perm, step)) + [n_perm - 1]`. -/
def printAt (nPerm step : Nat) : List Nat :=
  ((List.range nPerm).filter fun i => step ≤ i && i % step == 0) ++ [nPerm - 1]

/-- Emit one statistics window when the attempt index is a checkpoint:
the window length comes from consecutive checkpoints
(`print_at.index(i)` finds the first occurrence), the rates are recorded,
and the counters are reset. -/
def recordStat (nPerm len : Nat) (pAt : List Nat) (orig : Finset (Nat × Nat))
    (st : PermState) (i : Nat) : PermState :=
  if pAt.contains i then
    let index := pAt.indexOf i
    let attempts : Nat :=
      if index = 0 then pAt.getD index 0 + 1 else pAt.getD index 0 - pAt.getD (index - 1) 0
    let stat : PermStat :=
      { cumulativeAttempts := i
        attempts := attempts
        complete := ((i : ℚ) + 1) / (nPerm : ℚ)
        unchanged := ((orig ∩ st.edgeSet).card : ℚ) / (len : ℚ)
        selfLoop := (st.countSelfLoop : ℚ) / (attempts : ℚ)
        duplicate := (st.countDuplicate : ℚ) / (attempts : ℚ)
        undirectedDuplicate := (st.countUndirDup : ℚ) / (attempts : ℚ)
        excluded := (st.countExcluded : ℚ) / (attempts : ℚ) }
    { st with
      stats := st.stats ++ [stat]
      countSelfLoop := 0
      countDuplicate := 0
      countUndirDup := 0
      countExcluded := 0 }
  else st

/-- One iteration of the main loop: the swap attempt at the drawn index
pair, then the statistics checkpoint. -/
def permStep (directed : Bool) (excluded orig : Finset (Nat × Nat)) (nPerm len : Nat)
    (pAt : List Nat) (picks : Nat → Nat × Nat) (st : PermState) (i : Nat) : PermState :=
  recordStat nPerm len pAt orig (applyAttempt directed excluded st (picks i).1 (picks i).2) i

/-- The loop state after the first `k` attempts. -/
def permRun (directed : Bool) (excluded orig : Finset (Nat × Nat)) (nPerm len : Nat)
    (pAt : List Nat) (picks : Nat → Nat × Nat) (init : PermState) (k : Nat) : PermState :=
  (List.range k).foldl (permStep directed excluded orig nPerm len pAt picks) init

/-- Modelled from the spec: the source draws each attempt's index pair
from Python's seeded `random` module, which is external to the
repository — a deterministic stream fixed by the seed.  The model uses a
linear congruential stream; the second index is offset so that the two
indices below `n` always differ, matching the source's redraw loop
(which can only terminate when `2 ≤ n`). -/
def lcgNext (s : Nat) : Nat := (s * 1103515245 + 12345) % 4294967296

def lcgStream (seed : Nat) : Nat → Nat
  | 0 => lcgNext (seed + 1)
  | k + 1 => lcgNext (lcgStream seed k)

def pyRandPair (n seed : Nat) (i : Nat) : Nat × Nat :=
  let a := lcgStream seed (2 * i)
  let b := lcgStream seed (2 * i + 1)
  let i0 := a % n
  (i0, (i0 + 1 + b % (n - 1)) % n)

/-- The reserved neo4j column names of `graph_tools`. -/
def reservedCols : List String := ["id", "label", "start_id", "end_id", "type"]

/-- Python `str.split(':')` on a character list. -/
def splitColon : List Char → List (List Char)
  | [] => [[]]
  | c :: cs =>
    if c = ':' then [] :: splitColon cs
    else
      match splitColon cs with
      | h :: t => (c :: h) :: t
      | [] => [[c]]

/-- Model of `remove_colons` on one column name: a name containing a
colon is lowercased and split at colons; the part after the first colon
is kept when it is a reserved name, else the part before.  Names without
a colon are unchanged. -/
def cleanColumn (c : String) : String :=
  if c.toList.contains ':' then
    let parts := splitColon (c.toList.map Char.toLower)
    let l1 := String.mk (parts.getD 1 [])
    if reservedCols.contains l1 then l1 else String.mk (parts.getD 0 [])
  else c

/-- An edge table: the column names and the rows' (start_id, end_id,
type) fields.  Values of extra attribute columns are never read by
`permute_edges` and are not modelled. -/
structure EdgeFrame where
  columns : List String
  rows : List (Nat × Nat × String)
  deriving DecidableEq, Repr

inductive PermError where
  | duplicateEdges
  | multipleEdgeTypes
  | degenerateEdgeCount
  deriving DecidableEq, Repr

/-- The output column names: `out_edges` is built with columns
`start_id`, `end_id`, `type` and renamed through `col_name_mapper`, the
dict zipping the cleaned input column names back to the originals. -/
def outputColumns (origCols : List String) : List String :=
  let mapper := (origCols.map cleanColumn).zip origCols
  ["start_id", "end_id", "type"].map fun c =>
    ((mapper.reverse.find? fun p => p.1 == c).map Prod.snd).getD c

/-- Model of `graph_tools.permute_edges`.  The two `assert`s become the
`duplicateEdges` and `multipleEdgeTypes` errors; `degenerateEdgeCount`
models the source diverging (`randrange(0)` raising, or the
distinct-index redraw loop spinning forever) when attempts are requested
on fewer than two edges.  The random index stream is the seed-determined
model stream `pyRandPair`. -/
def permute_edges (edges : EdgeFrame) (directed : Bool) (multiplier : Nat)
    (excludedEdges : List (Nat × Nat)) (seed : Nat) :
    Except PermError (EdgeFrame × List PermStat) :=
  let pairs := edges.rows.map fun r => (r.1, r.2.1)
  if pairs.Nodup then
    if ((edges.rows.map fun r => r.2.2).dedup).length = 1 then
      let eType := (edges.rows.map fun r => r.2.2).getD 0 ""
      let n := edges.rows.length
      let nPerm := n * multiplier
      if nPerm ≠ 0 ∧ n < 2 then .error .degenerateEdgeCount
      else
        let final := permRun directed excludedEdges.toFinset pairs.toFinset nPerm n
          (printAt nPerm (max 1 (nPerm / 10))) (pyRandPair n seed)
          ⟨pairs, pairs.toFinset, 0, 0, 0, 0, []⟩ nPerm
        .ok (⟨outputColumns edges.columns,
              final.edgeList.map fun e => (e.1, e.2, eType)⟩, final.stats)
    else .error .multipleEdgeTypes
  else .error .duplicateEdges

/-- C4: `permute_edges` is deterministic given its seed — equal seeds and
equal inputs (edge table, directed flag, multiplier, exclusion set) yield
the identical permuted edge table and the identical statistics table.
All randomness flows through the seed-determined index stream, and the
function is pure. -/
theorem permute_edges_deterministic (e1 e2 : EdgeFrame) (d1 d2 : Bool) (m1 m2 : Nat)
    (x1 x2 : List (Nat × Nat)) (s1 s2 : Nat)
    (he : e1 = e2) (hd : d1 = d2) (hm : m1 = m2) (hx : x1 = x2) (hs : s1 = s2) :
    permute_edges e1 d1 m1 x1 s1 = permute_edges e2 d2 m2 x2 s2 := by
  subst he
  subst hd
  subst hm
  subst hx
  subst hs
  rfl

/-- Witness for C4 at a concrete two-edge table and seed. -/
theorem permute_edges_deterministic_witness :
    permute_edges ⟨["start_id", "end_id", "type"], [(1, 2, "t"), (3, 4, "t")]⟩ false 10 [] 7
      = permute_edges ⟨["start_id", "end_id", "type"], [(1, 2, "t"), (3, 4, "t")]⟩
        false 10 [] 7 :=
  permute_edges_deterministic _ _ _ _ _ _ _ _ _ _ rfl rfl rfl rfl rfl

/-- C7 counterexample: an input table carrying the extra attribute column
`weight` — the permuted table keeps only the start-id, end-id and type
columns, so its columns differ from the input's. -/
theorem permute_edges_columns_counterexample :
    permute_edges ⟨["start_id", "end_id", "type", "weight"], [(1, 2, "t")]⟩ false 0 [] 0
      = .ok (⟨["start_id", "end_id", "type"], [(1, 2, "t")]⟩, []) ∧
    (["start_id", "end_id", "type"] : List String)
      ≠ ["start_id", "end_id", "type", "weight"] := by
  constructor
  · rfl
  · decide

/-- C7 (amended): the permuted table's columns are the input's start-id,
end-id and type columns under their original names, in that fixed order
(the `col_name_mapper` renaming applied to `start_id`, `end_id`,
`type`); any extra attribute columns are dropped.  In particular the
output columns equal the input columns exactly when the input consists
of those three columns in that order. -/
theorem permute_edges_columns (edges : EdgeFrame) (directed : Bool) (multiplier : Nat)
    (excludedEdges : List (Nat × Nat)) (seed : Nat) (out : EdgeFrame)
    (stats : List PermStat)
    (hok : permute_edges edges directed multiplier excludedEdges seed = .ok (out, stats)) :
    out.columns = outputColumns edges.columns ∧
    (edges.columns.map cleanColumn = ["start_id", "end_id", "type"] →
      out.columns = edges.columns) := by
  have hcols : out.columns = outputColumns edges.columns := by
    unfold permute_edges at hok
    dsimp only at hok
    split at hok <;> try cases hok
    split at hok <;> try cases hok
    split at hok
    · cases hok
    · rw [Except.ok.injEq, Prod.mk.injEq] at hok
      rw [← hok.1]
  refine ⟨hcols, fun hclean => ?_⟩
  rw [hcols]
  have hlen : edges.columns.length = 3 := by
    rw [← List.length_map edges.columns cleanColumn, hclean]
    rfl
  obtain ⟨c1, c2, c3, hc⟩ : ∃ a b c, edges.columns = [a, b, c] := by
    match edges.columns, hlen with
    | [a, b, c], _ => exact ⟨a, b, c, rfl⟩
  rw [hc] at hclean ⊢
  simp only [List.map_cons, List.map_nil, List.cons.injEq, and_true] at hclean
  obtain ⟨h1, h2, h3⟩ := hclean
  unfold outputColumns
  simp [h1, h2, h3]

/-! ## Structural lemmas for the permutation loop -/

theorem set_self_of_getElem? {α : Type} :
    ∀ (xs : List α) (i : Nat) (v : α), xs[i]? = some v → xs.set i v = xs := by
  intro xs
  induction xs with
  | nil =>
    intro i v h
    cases h
  | cons a t ih =>
    intro i v h
    cases i with
    | zero =>
      simp only [List.getElem?_cons_zero, Option.some.injEq] at h
      simp [h]
    | succ n =>
      simp only [List.getElem?_cons_succ] at h
      simp [List.set_cons_succ, ih n v h]

theorem count_set_eq {α : Type} [DecidableEq α] :
    ∀ (xs : List α) (i : Nat) (v w z : α), xs[i]? = some w →
      (xs.set i v).count z + (if w = z then 1 else 0)
        = xs.count z + (if v = z then 1 else 0) := by
  intro xs
  induction xs with
  | nil =>
    intro i v w z h
    cases h
  | cons a t ih =>
    intro i v w z h
    cases i with
    | zero =>
      simp only [List.getElem?_cons_zero, Option.some.injEq] at h
      subst h
      simp only [List.set_cons_zero, List.count_cons, beq_iff_eq]
      split_ifs <;> omega
    | succ n =>
      simp only [List.getElem?_cons_succ] at h
      have hrec := ih n v w z h
      simp only [List.set_cons_succ, List.count_cons, beq_iff_eq]
      split_ifs at hrec ⊢ <;> omega

theorem count_double_set {α : Type} [DecidableEq α] (l : List α) (i0 i1 : Nat)
    (e0 e1 v0 v1 : α) (h0 : l[i0]? = some e0) (h1 : l[i1]? = some e1) (hne : i0 ≠ i1)
    (z : α) :
    ((l.set i0 v0).set i1 v1).count z
        + (if e0 = z then 1 else 0) + (if e1 = z then 1 else 0)
      = l.count z + (if v0 = z then 1 else 0) + (if v1 = z then 1 else 0) := by
  have hA := count_set_eq l i0 v0 e0 z h0
  have h1' : (l.set i0 v0)[i1]? = some e1 := by
    rw [List.getElem?_set_ne hne]
    exact h1
  have hB := count_set_eq (l.set i0 v0) i1 v1 e1 z h1'
  omega

theorem bumpCounter_edgeList (st : PermState) (r : RejectReason) :
    (bumpCounter st r).edgeList = st.edgeList := by
  cases r <;> rfl

theorem bumpCounter_edgeSet (st : PermState) (r : RejectReason) :
    (bumpCounter st r).edgeSet = st.edgeSet := by
  cases r <;> rfl

theorem recordStat_edgeList (nPerm len : Nat) (pAt : List Nat) (orig : Finset (Nat × Nat))
    (st : PermState) (i : Nat) :
    (recordStat nPerm len pAt orig st i).edgeList = st.edgeList := by
  unfold recordStat
  split <;> rfl

theorem recordStat_edgeSet (nPerm len : Nat) (pAt : List Nat) (orig : Finset (Nat × Nat))
    (st : PermState) (i : Nat) :
    (recordStat nPerm len pAt orig st i).edgeSet = st.edgeSet := by
  unfold recordStat
  split <;> rfl

theorem checkEdge_none_iff (directed : Bool) (eset excl : Finset (Nat × Nat))
    (e : Nat × Nat) :
    checkEdge directed eset excl e = none ↔
      e.1 ≠ e.2 ∧ e ∉ eset ∧ ¬(directed = false ∧ (e.2, e.1) ∈ eset) ∧ e ∉ excl := by
  unfold checkEdge
  split_ifs <;> simp_all

theorem permRun_succ (directed : Bool) (excluded orig : Finset (Nat × Nat))
    (nPerm len : Nat) (pAt : List Nat) (picks : Nat → Nat × Nat) (init : PermState)
    (k : Nat) :
    permRun directed excluded orig nPerm len pAt picks init (k + 1)
      = permStep directed excluded orig nPerm len pAt picks
          (permRun directed excluded orig nPerm len pAt picks init k) k := by
  unfold permRun
  rw [List.range_succ, List.foldl_append, List.foldl_cons, List.foldl_nil]

theorem applyAttempt_map_fst (directed : Bool) (excluded : Finset (Nat × Nat))
    (st : PermState) (i0 i1 : Nat) :
    (applyAttempt directed excluded st i0 i1).edgeList.map Prod.fst
      = st.edgeList.map Prod.fst := by
  unfold applyAttempt
  rcases h0 : st.edgeList[i0]? with _ | e0
  · rfl
  rcases h1 : st.edgeList[i1]? with _ | e1
  · rfl
  dsimp only
  by_cases hne : i0 = i1
  · rw [if_pos hne]
  rw [if_neg hne]
  rcases hc0 : checkEdge directed st.edgeSet excluded (e0.1, e1.2) with _ | r0
  · rcases hc1 : checkEdge directed st.edgeSet excluded (e1.1, e0.2) with _ | r1
    · dsimp only
      rw [List.map_set, List.map_set]
      dsimp only
      have hf0 : (st.edgeList.map Prod.fst)[i0]? = some e0.1 := by
        rw [List.getElem?_map, h0]
        rfl
      have hf1 : (st.edgeList.map Prod.fst)[i1]? = some e1.1 := by
        rw [List.getElem?_map, h1]
        rfl
      rw [set_self_of_getElem? _ _ _ hf0, set_self_of_getElem? _ _ _ hf1]
    · rw [bumpCounter_edgeList]
  · rw [bumpCounter_edgeList]

theorem applyAttempt_count_snd (directed : Bool) (excluded : Finset (Nat × Nat))
    (st : PermState) (i0 i1 : Nat) (z : Nat) :
    ((applyAttempt directed excluded st i0 i1).edgeList.map Prod.snd).count z
      = (st.edgeList.map Prod.snd).count z := by
  unfold applyAttempt
  rcases h0 : st.edgeList[i0]? with _ | e0
  · rfl
  rcases h1 : st.edgeList[i1]? with _ | e1
  · rfl
  dsimp only
  by_cases hne : i0 = i1
  · rw [if_pos hne]
  rw [if_neg hne]
  rcases hc0 : checkEdge directed st.edgeSet excluded (e0.1, e1.2) with _ | r0
  · rcases hc1 : checkEdge directed st.edgeSet excluded (e1.1, e0.2) with _ | r1
    · dsimp only
      rw [List.map_set, List.map_set]
      dsimp only
      have hs0 : (st.edgeList.map Prod.snd)[i0]? = some e0.2 := by
        rw [List.getElem?_map, h0]
        rfl
      have hs1 : (st.edgeList.map Prod.snd)[i1]? = some e1.2 := by
        rw [List.getElem?_map, h1]
        rfl
      have := count_double_set (st.edgeList.map Prod.snd) i0 i1 e0.2 e1.2 e1.2 e0.2
        hs0 hs1 hne z
      split_ifs at this <;> omega
    · rw [bumpCounter_edgeList]
  · rw [bumpCounter_edgeList]

/-- Each swap attempt is atomic: either the edge list and membership set
are both left unchanged (any failing check, or a draw the source never
produces), or both are updated together in the accepted-swap form. -/
theorem applyAttempt_atomic (directed : Bool) (excluded : Finset (Nat × Nat))
    (st : PermState) (i0 i1 : Nat) :
    ((applyAttempt directed excluded st i0 i1).edgeList = st.edgeList ∧
      (applyAttempt directed excluded st i0 i1).edgeSet = st.edgeSet) ∨
    (∃ e0 e1, st.edgeList[i0]? = some e0 ∧ st.edgeList[i1]? = some e1 ∧ i0 ≠ i1 ∧
      checkEdge directed st.edgeSet excluded (e0.1, e1.2) = none ∧
      checkEdge directed st.edgeSet excluded (e1.1, e0.2) = none ∧
      (applyAttempt directed excluded st i0 i1).edgeList
        = (st.edgeList.set i0 (e0.1, e1.2)).set i1 (e1.1, e0.2) ∧
      (applyAttempt directed excluded st i0 i1).edgeSet
        = insert (e1.1, e0.2) (insert (e0.1, e1.2) ((st.edgeSet.erase e0).erase e1))) := by
  unfold applyAttempt
  rcases h0 : st.edgeList[i0]? with _ | e0
  · exact Or.inl ⟨rfl, rfl⟩
  rcases h1 : st.edgeList[i1]? with _ | e1
  · exact Or.inl ⟨rfl, rfl⟩
  dsimp only
  by_cases hne : i0 = i1
  · rw [if_pos hne]
    exact Or.inl ⟨rfl, rfl⟩
  rw [if_neg hne]
  rcases hc0 : checkEdge directed st.edgeSet excluded (e0.1, e1.2) with _ | r0
  · rcases hc1 : checkEdge directed st.edgeSet excluded (e1.1, e0.2) with _ | r1
    · exact Or.inr ⟨e0, e1, rfl, rfl, hne, hc0, hc1, rfl, rfl⟩
    · exact Or.inl ⟨bumpCounter_edgeList st r1, bumpCounter_edgeSet st r1⟩
  · exact Or.inl ⟨bumpCounter_edgeList st r0, bumpCounter_edgeSet st r0⟩

/-- The loop-state consistency invariant: the edge list has no duplicate
entries and the membership set holds exactly its entries. -/
def ConsistentState (st : PermState) : Prop :=
  st.edgeList.Nodup ∧ st.edgeSet = st.edgeList.toFinset

section PermInvariants

set_option maxHeartbeats 2000000 in
theorem applyAttempt_consistent (directed : Bool) (excluded : Finset (Nat × Nat))
    (st : PermState) (i0 i1 : Nat) (h : ConsistentState st) :
    ConsistentState (applyAttempt directed excluded st i0 i1) := by
  obtain ⟨hnd, hset⟩ := h
  rcases applyAttempt_atomic directed excluded st i0 i1 with
    ⟨hl, hs⟩ | ⟨e0, e1, h0, h1, hne, hc0, hc1, hl, hs⟩
  · rw [ConsistentState, hl, hs]
    exact ⟨hnd, hset⟩
  obtain ⟨_, hs0set, _, _⟩ := (checkEdge_none_iff _ _ _ _).mp hc0
  obtain ⟨_, hs1set, _, _⟩ := (checkEdge_none_iff _ _ _ _).mp hc1
  set l := st.edgeList with hldef
  have he0mem : e0 ∈ l := by
    obtain ⟨hlt, heq⟩ := List.getElem?_eq_some.mp h0
    exact heq ▸ List.getElem_mem hlt
  have he1mem : e1 ∈ l := by
    obtain ⟨hlt, heq⟩ := List.getElem?_eq_some.mp h1
    exact heq ▸ List.getElem_mem hlt
  have he01ne : e0 ≠ e1 := by
    intro hq
    obtain ⟨hi0lt, hg0⟩ := List.getElem?_eq_some.mp h0
    obtain ⟨hi1lt, hg1⟩ := List.getElem?_eq_some.mp h1
    exact hne ((List.Nodup.getElem_inj_iff hnd).mp (by rw [hg0, hg1, hq]))
  have hs0nl : (e0.1, e1.2) ∉ l := by
    rw [hset, List.mem_toFinset] at hs0set
    exact hs0set
  have hs1nl : (e1.1, e0.2) ∉ l := by
    rw [hset, List.mem_toFinset] at hs1set
    exact hs1set
  have hde0s0 : e0 ≠ (e0.1, e1.2) := fun hq => hs0nl (hq ▸ he0mem)
  have hde0s1 : e0 ≠ (e1.1, e0.2) := fun hq => hs1nl (hq ▸ he0mem)
  have hde1s0 : e1 ≠ (e0.1, e1.2) := fun hq => hs0nl (hq ▸ he1mem)
  have hde1s1 : e1 ≠ (e1.1, e0.2) := fun hq => hs1nl (hq ▸ he1mem)
  have hs0s1 : (e0.1, e1.2) ≠ (e1.1, e0.2) := by
    intro hq
    rw [Prod.mk.injEq] at hq
    exact he01ne (Prod.ext hq.1 hq.2.symm)
  have hcnt := fun x => count_double_set l i0 i1 e0 e1 (e0.1, e1.2) (e1.1, e0.2) h0 h1 hne x
  have hle1 := List.nodup_iff_count_le_one.mp hnd
  have hcl_s0 : @List.count _ instBEqOfDecidableEq (e0.1, e1.2) l = 0 :=
    (@List.count_eq_zero _ instBEqOfDecidableEq instLawfulBEq _ _).mpr hs0nl
  have hcl_s1 : @List.count _ instBEqOfDecidableEq (e1.1, e0.2) l = 0 :=
    (@List.count_eq_zero _ instBEqOfDecidableEq instLawfulBEq _ _).mpr hs1nl
  have hcl_e0 := List.count_eq_one_of_mem hnd he0mem
  have hcl_e1 := List.count_eq_one_of_mem hnd he1mem
  have hnew : ∀ x, @List.count _ instBEqOfDecidableEq x
        ((l.set i0 (e0.1, e1.2)).set i1 (e1.1, e0.2))
      = @List.count _ instBEqOfDecidableEq x l
        + (if (e0.1, e1.2) = x then 1 else 0) + (if (e1.1, e0.2) = x then 1 else 0)
        - (if e0 = x then 1 else 0) - (if e1 = x then 1 else 0) := by
    intro x
    have hx := hcnt x
    by_cases h1x : e0 = x <;> by_cases h2x : e1 = x
    · exact absurd (h1x.trans h2x.symm) he01ne
    all_goals
      have h3x := hle1 x
      split_ifs at hx ⊢ <;> omega
  constructor
  · rw [hl]
    rw [List.nodup_iff_count_le_one]
    intro x
    rw [hnew x]
    by_cases ha : (e0.1, e1.2) = x
    · subst ha
      rw [hcl_s0, if_pos rfl, if_neg (Ne.symm hs0s1), if_neg hde0s0, if_neg hde1s0]
    · by_cases hb : (e1.1, e0.2) = x
      · subst hb
        rw [hcl_s1, if_neg ha, if_pos rfl, if_neg hde0s1, if_neg hde1s1]
      · rw [if_neg ha, if_neg hb]
        have h3x := hle1 x
        split_ifs <;> omega
  · rw [hl, hs, hset]
    apply Finset.ext
    intro x
    simp only [Finset.mem_insert, Finset.mem_erase, List.mem_toFinset]
    have hmn : x ∈ (l.set i0 (e0.1, e1.2)).set i1 (e1.1, e0.2)
        ↔ 0 < @List.count _ instBEqOfDecidableEq x
            ((l.set i0 (e0.1, e1.2)).set i1 (e1.1, e0.2)) :=
      (@List.count_pos_iff _ instBEqOfDecidableEq instLawfulBEq _ _).symm
    have hml : x ∈ l ↔ 0 < @List.count _ instBEqOfDecidableEq x l :=
      (@List.count_pos_iff _ instBEqOfDecidableEq instLawfulBEq _ _).symm
    rw [hmn, hml, hnew x]
    by_cases ha : (e0.1, e1.2) = x
    · subst ha
      rw [hcl_s0, if_pos rfl, if_neg (Ne.symm hs0s1), if_neg hde0s0, if_neg hde1s0]
      exact ⟨fun _ => by norm_num, fun _ => Or.inr (Or.inl rfl)⟩
    · by_cases hb : (e1.1, e0.2) = x
      · subst hb
        rw [hcl_s1, if_neg ha, if_pos rfl, if_neg hde0s1, if_neg hde1s1]
        exact ⟨fun _ => by norm_num, fun _ => Or.inl rfl⟩
      · rw [if_neg ha, if_neg hb]
        by_cases hc : e0 = x
        · subst hc
          rw [hcl_e0, if_pos rfl, if_neg (fun hq => he01ne hq.symm)]
          constructor
          · rintro (hq | hq | ⟨_, hq, _⟩)
            · exact absurd hq hde0s1
            · exact absurd hq hde0s0
            · exact absurd rfl hq
          · intro hq
            exact absurd hq (by norm_num)
        · by_cases hd : e1 = x
          · subst hd
            rw [hcl_e1, if_neg hc, if_pos rfl]
            constructor
            · rintro (hq | hq | ⟨hq, _, _⟩)
              · exact absurd hq hde1s1
              · exact absurd hq hde1s0
              · exact absurd rfl hq
            · intro hq
              exact absurd hq (by norm_num)
          · rw [if_neg hc, if_neg hd]
            constructor
            · rintro (hq | hq | ⟨_, _, hq⟩)
              · exact absurd hq.symm hb
              · exact absurd hq.symm ha
              · omega
            · intro hq
              exact Or.inr (Or.inr ⟨fun hq2 => hd hq2.symm, fun hq2 => hc hq2.symm, by omega⟩)

/-- The stronger invariant used for the output guarantees: consistency,
plus absence of self-loops, of excluded edges, and (for undirected edge
types) of reverse-orientation pairs in the edge list. -/
def CleanState (directed : Bool) (excluded : Finset (Nat × Nat)) (st : PermState) : Prop :=
  ConsistentState st ∧
  (∀ e ∈ st.edgeList, e.1 ≠ e.2) ∧
  (∀ e ∈ st.edgeList, e ∉ excluded) ∧
  (directed = false → ∀ e ∈ st.edgeList, (e.2, e.1) ∉ st.edgeList)

theorem applyAttempt_clean (directed : Bool) (excluded : Finset (Nat × Nat))
    (st : PermState) (i0 i1 : Nat) (h : CleanState directed excluded st) :
    CleanState directed excluded (applyAttempt directed excluded st i0 i1) := by
  obtain ⟨hcons, hself, hexcl, hrev⟩ := h
  refine ⟨applyAttempt_consistent directed excluded st i0 i1 hcons, ?_⟩
  obtain ⟨hnd, hset⟩ := hcons
  rcases applyAttempt_atomic directed excluded st i0 i1 with
    ⟨hl, _⟩ | ⟨e0, e1, h0, h1, hne, hc0, hc1, hl, _⟩
  · rw [hl]
    exact ⟨hself, hexcl, hrev⟩
  obtain ⟨hs0self, hs0set, hs0rev, hs0ex⟩ := (checkEdge_none_iff _ _ _ _).mp hc0
  obtain ⟨hs1self, hs1set, hs1rev, hs1ex⟩ := (checkEdge_none_iff _ _ _ _).mp hc1
  set l := st.edgeList with hldef
  have he0mem : e0 ∈ l := by
    obtain ⟨hlt, heq⟩ := List.getElem?_eq_some.mp h0
    exact heq ▸ List.getElem_mem hlt
  have he1mem : e1 ∈ l := by
    obtain ⟨hlt, heq⟩ := List.getElem?_eq_some.mp h1
    exact heq ▸ List.getElem_mem hlt
  have hmem_new : ∀ x, x ∈ (l.set i0 (e0.1, e1.2)).set i1 (e1.1, e0.2) →
      x ∈ l ∨ x = (e0.1, e1.2) ∨ x = (e1.1, e0.2) := by
    intro x hx
    rcases List.mem_or_eq_of_mem_set hx with hx' | hx'
    · rcases List.mem_or_eq_of_mem_set hx' with hx'' | hx''
      · exact Or.inl hx''
      · exact Or.inr (Or.inl hx'')
    · exact Or.inr (Or.inr hx')
  rw [hl]
  refine ⟨?_, ?_, ?_⟩
  · intro x hx
    rcases hmem_new x hx with hx' | rfl | rfl
    · exact hself x hx'
    · exact hs0self
    · exact hs1self
  · intro x hx
    rcases hmem_new x hx with hx' | rfl | rfl
    · exact hexcl x hx'
    · exact hs0ex
    · exact hs1ex
  · intro hdir x hx hrx
    have hs0inl : (e1.2, e0.1) ∉ l := by
      intro hq
      exact hs0rev ⟨hdir, by rw [hset, List.mem_toFinset]; exact hq⟩
    have hs1inl : (e0.2, e1.1) ∉ l := by
      intro hq
      exact hs1rev ⟨hdir, by rw [hset, List.mem_toFinset]; exact hq⟩
    rcases hmem_new x hx with hx' | rfl | rfl
    · rcases hmem_new _ hrx with hr' | hr' | hr'
      · exact hrev hdir x hx' hr'
      · rw [Prod.ext_iff] at hr'
        obtain ⟨ha, hb⟩ := hr'
        dsimp only at ha hb
        have : x = (e1.2, e0.1) := Prod.ext (by omega) (by omega)
        exact hs0inl (this ▸ hx')
      · rw [Prod.ext_iff] at hr'
        obtain ⟨ha, hb⟩ := hr'
        dsimp only at ha hb
        have : x = (e0.2, e1.1) := Prod.ext (by omega) (by omega)
        exact hs1inl (this ▸ hx')
    · rcases hmem_new _ hrx with hr' | hr' | hr'
      · exact hs0inl hr'
      · rw [Prod.ext_iff] at hr'
        dsimp only at hr'
        exact hs0self (by omega)
      · rw [Prod.ext_iff] at hr'
        dsimp only at hr'
        obtain ⟨ha, hb⟩ := hr'
        exact hself e1 he1mem (by omega)
    · rcases hmem_new _ hrx with hr' | hr' | hr'
      · exact hs1inl hr'
      · rw [Prod.ext_iff] at hr'
        dsimp only at hr'
        obtain ⟨ha, hb⟩ := hr'
        exact hself e0 he0mem (by omega)
      · rw [Prod.ext_iff] at hr'
        dsimp only at hr'
        exact hs1self (by omega)

theorem permRun_consistent (directed : Bool) (excluded orig : Finset (Nat × Nat))
    (nPerm len : Nat) (pAt : List Nat) (picks : Nat → Nat × Nat) (init : PermState)
    (h : ConsistentState init) (k : Nat) :
    ConsistentState (permRun directed excluded orig nPerm len pAt picks init k) := by
  induction k with
  | zero => exact h
  | succ n ih =>
    rw [permRun_succ]
    unfold permStep
    refine ⟨?_, ?_⟩
    · rw [recordStat_edgeList]
      exact (applyAttempt_consistent _ _ _ _ _ ih).1
    · rw [recordStat_edgeList, recordStat_edgeSet]
      exact (applyAttempt_consistent _ _ _ _ _ ih).2

theorem permRun_clean (directed : Bool) (excluded orig : Finset (Nat × Nat))
    (nPerm len : Nat) (pAt : List Nat) (picks : Nat → Nat × Nat) (init : PermState)
    (h : CleanState directed excluded init) (k : Nat) :
    CleanState directed excluded (permRun directed excluded orig nPerm len pAt picks init k) := by
  induction k with
  | zero => exact h
  | succ n ih =>
    rw [permRun_succ]
    unfold permStep
    have hstep := applyAttempt_clean directed excluded _ (picks n).1 (picks n).2 ih
    refine ⟨⟨?_, ?_⟩, ?_, ?_, ?_⟩
    · rw [recordStat_edgeList]
      exact hstep.1.1
    · rw [recordStat_edgeList, recordStat_edgeSet]
      exact hstep.1.2
    · rw [recordStat_edgeList]
      exact hstep.2.1
    · rw [recordStat_edgeList]
      exact hstep.2.2.1
    · rw [recordStat_edgeList]
      exact hstep.2.2.2

theorem permRun_map_fst (directed : Bool) (excluded orig : Finset (Nat × Nat))
    (nPerm len : Nat) (pAt : List Nat) (picks : Nat → Nat × Nat) (init : PermState)
    (k : Nat) :
    (permRun directed excluded orig nPerm len pAt picks init k).edgeList.map Prod.fst
      = init.edgeList.map Prod.fst := by
  induction k with
  | zero => rfl
  | succ n ih =>
    rw [permRun_succ]
    unfold permStep
    rw [recordStat_edgeList, applyAttempt_map_fst]
    exact ih

theorem permRun_count_snd (directed : Bool) (excluded orig : Finset (Nat × Nat))
    (nPerm len : Nat) (pAt : List Nat) (picks : Nat → Nat × Nat) (init : PermState)
    (k : Nat) (z : Nat) :
    ((permRun directed excluded orig nPerm len pAt picks init k).edgeList.map
        Prod.snd).count z
      = (init.edgeList.map Prod.snd).count z := by
  induction k with
  | zero => rfl
  | succ n ih =>
    rw [permRun_succ]
    unfold permStep
    rw [recordStat_edgeList, applyAttempt_count_snd]
    exact ih

end PermInvariants

/-- C1: `permute_edges` preserves every node's degree exactly — on
success, every node identifier occurs as a start id in the permuted rows
the same number of times as in the input rows, and likewise as an end id
(each accepted double-edge swap keeps the start entries in place and
transposes two end entries). -/
theorem permute_edges_preserves_degree (edges : EdgeFrame) (directed : Bool)
    (multiplier : Nat) (excludedEdges : List (Nat × Nat)) (seed : Nat)
    (out : EdgeFrame) (stats : List PermStat)
    (hok : permute_edges edges directed multiplier excludedEdges seed = .ok (out, stats)) :
    (∀ x : Nat, (out.rows.map fun r => r.1).count x
        = (edges.rows.map fun r => r.1).count x) ∧
    (∀ x : Nat, (out.rows.map fun r => r.2.1).count x
        = (edges.rows.map fun r => r.2.1).count x) := by
  unfold permute_edges at hok
  dsimp only at hok
  split at hok <;> try cases hok
  split at hok <;> try cases hok
  split at hok
  · cases hok
  · rw [Except.ok.injEq, Prod.mk.injEq] at hok
    obtain ⟨hout, _⟩ := hok
    subst hout
    have hfst : ∀ (L : List (Nat × Nat)) (t : String),
        (L.map fun e => (e.1, e.2, t)).map (fun r : Nat × Nat × String => r.1)
          = L.map Prod.fst := by
      intro L t
      rw [List.map_map]
      rfl
    have hsnd : ∀ (L : List (Nat × Nat)) (t : String),
        (L.map fun e => (e.1, e.2, t)).map (fun r : Nat × Nat × String => r.2.1)
          = L.map Prod.snd := by
      intro L t
      rw [List.map_map]
      rfl
    have hinfst : edges.rows.map (fun r => r.1)
        = (edges.rows.map fun r => (r.1, r.2.1)).map Prod.fst := by
      rw [List.map_map]
      rfl
    have hinsnd : edges.rows.map (fun r => r.2.1)
        = (edges.rows.map fun r => (r.1, r.2.1)).map Prod.snd := by
      rw [List.map_map]
      rfl
    constructor
    · intro x
      dsimp only
      rw [hfst, hinfst, permRun_map_fst]
    · intro x
      dsimp only
      rw [hsnd, hinsnd]
      rw [permRun_count_snd]

/-- Witness for C1 at a concrete two-edge table. -/
theorem permute_edges_preserves_degree_witness :
    ((((⟨["start_id", "end_id", "type"], [(1, 2, "t"), (3, 4, "t")]⟩ : EdgeFrame)).rows.map
        fun r => r.1).count 1
      = (([(1, 2, "t"), (3, 4, "t")] : List (Nat × Nat × String)).map fun r => r.1).count 1) ∧
    ((((⟨["start_id", "end_id", "type"], [(1, 2, "t"), (3, 4, "t")]⟩ : EdgeFrame)).rows.map
        fun r => r.2.1).count 2
      = (([(1, 2, "t"), (3, 4, "t")] : List (Nat × Nat × String)).map fun r => r.2.1).count 2) :=
  ⟨(permute_edges_preserves_degree ⟨["start_id", "end_id", "type"], [(1, 2, "t"), (3, 4, "t")]⟩
      false 0 [] 0 ⟨["start_id", "end_id", "type"], [(1, 2, "t"), (3, 4, "t")]⟩ [] rfl).1 1,
   (permute_edges_preserves_degree ⟨["start_id", "end_id", "type"], [(1, 2, "t"), (3, 4, "t")]⟩
      false 0 [] 0 ⟨["start_id", "end_id", "type"], [(1, 2, "t"), (3, 4, "t")]⟩ [] rfl).2 2⟩

/-- Witness for the amended C7 theorem at a table whose columns are
exactly the three plain id/type names. -/
theorem permute_edges_columns_witness :
    (⟨["start_id", "end_id", "type"], [(1, 2, "t")]⟩ : EdgeFrame).columns
        = outputColumns (⟨["start_id", "end_id", "type"], [(1, 2, "t")]⟩ : EdgeFrame).columns ∧
    ((⟨["start_id", "end_id", "type"], [(1, 2, "t")]⟩ : EdgeFrame).columns.map cleanColumn
        = ["start_id", "end_id", "type"] →
      (⟨["start_id", "end_id", "type"], [(1, 2, "t")]⟩ : EdgeFrame).columns
        = (⟨["start_id", "end_id", "type"], [(1, 2, "t")]⟩ : EdgeFrame).columns) :=
  permute_edges_columns ⟨["start_id", "end_id", "type"], [(1, 2, "t")]⟩ false 0 [] 0
    ⟨["start_id", "end_id", "type"], [(1, 2, "t")]⟩ [] rfl

/-- C2 counterexample: `permute_edges` re-emits a self-loop that was
already present in the input (here with `multiplier = 0`, so no attempt
removes it): the output contains the self-loop row `(1, 1)`, refuting
"the edge list returned by permute_edges contains no self-loop" for
arbitrary inputs. -/
theorem permute_edges_selfloop_counterexample :
    permute_edges ⟨["start_id", "end_id", "type"], [(1, 1, "t"), (2, 3, "t")]⟩ false 0 [] 0
      = .ok (⟨["start_id", "end_id", "type"], [(1, 1, "t"), (2, 3, "t")]⟩, []) ∧
    ∃ r ∈ (⟨["start_id", "end_id", "type"], [(1, 1, "t"), (2, 3, "t")]⟩ : EdgeFrame).rows,
      r.1 = r.2.1 := by
  constructor
  · rfl
  · exact ⟨(1, 1, "t"), by decide, rfl⟩

/-- C2 (amended): when the input edge table itself contains no self-loop,
no edge of the exclusion set, and (when `directed = false`) no pair of
rows in mutually reverse orientation, the permuted edge list has the same
length as the input, contains no duplicate (start, end) pair, no
self-loop, no excluded edge, and (when undirected) no
reverse-orientation duplicate.  The swap checks only prevent such edges
from being introduced; offending edges already present in the input are
passed through, which is what the counterexample exhibits. -/
theorem permute_edges_invariants (edges : EdgeFrame) (directed : Bool) (multiplier : Nat)
    (excludedEdges : List (Nat × Nat)) (seed : Nat) (out : EdgeFrame)
    (stats : List PermStat)
    (hok : permute_edges edges directed multiplier excludedEdges seed = .ok (out, stats))
    (hself : ∀ p ∈ edges.rows.map fun r => (r.1, r.2.1), p.1 ≠ p.2)
    (hexcl : ∀ p ∈ edges.rows.map fun r => (r.1, r.2.1), p ∉ excludedEdges)
    (hrev : directed = false → ∀ p ∈ edges.rows.map fun r => (r.1, r.2.1),
      (p.2, p.1) ∉ edges.rows.map fun r => (r.1, r.2.1)) :
    out.rows.length = edges.rows.length ∧
    (out.rows.map fun r => (r.1, r.2.1)).Nodup ∧
    (∀ p ∈ out.rows.map fun r => (r.1, r.2.1), p.1 ≠ p.2) ∧
    (∀ p ∈ out.rows.map fun r => (r.1, r.2.1), p ∉ excludedEdges) ∧
    (directed = false → ∀ p ∈ out.rows.map fun r => (r.1, r.2.1),
      (p.2, p.1) ∉ out.rows.map fun r => (r.1, r.2.1)) := by
  unfold permute_edges at hok
  dsimp only at hok
  split at hok <;> try cases hok
  rename_i hnodup
  split at hok <;> try cases hok
  rename_i hty
  split at hok
  · cases hok
  · rw [Except.ok.injEq, Prod.mk.injEq] at hok
    obtain ⟨hout, _⟩ := hok
    subst hout
    have hinit : CleanState directed excludedEdges.toFinset
        ⟨edges.rows.map fun r => (r.1, r.2.1),
         (edges.rows.map fun r => (r.1, r.2.1)).toFinset, 0, 0, 0, 0, []⟩ := by
      refine ⟨⟨hnodup, rfl⟩, hself, ?_, hrev⟩
      intro p hp hmem
      exact hexcl p hp (List.mem_toFinset.mp hmem)
    have hfinal := permRun_clean directed excludedEdges.toFinset
      (edges.rows.map fun r => (r.1, r.2.1)).toFinset
      (edges.rows.length * multiplier) edges.rows.length
      (printAt (edges.rows.length * multiplier) (1 ⊔ edges.rows.length * multiplier / 10))
      (pyRandPair edges.rows.length seed) _ hinit (edges.rows.length * multiplier)
    have hrows : (((permRun directed excludedEdges.toFinset
        (edges.rows.map fun r => (r.1, r.2.1)).toFinset
        (edges.rows.length * multiplier) edges.rows.length
        (printAt (edges.rows.length * multiplier) (1 ⊔ edges.rows.length * multiplier / 10))
        (pyRandPair edges.rows.length seed)
        ⟨edges.rows.map fun r => (r.1, r.2.1),
         (edges.rows.map fun r => (r.1, r.2.1)).toFinset, 0, 0, 0, 0, []⟩
        (edges.rows.length * multiplier)).edgeList.map
          (fun e => (e.1, e.2, (edges.rows.map fun r => r.2.2).getD 0 ""))).map
        fun r => (r.1, r.2.1))
        = (permRun directed excludedEdges.toFinset
          (edges.rows.map fun r => (r.1, r.2.1)).toFinset
          (edges.rows.length * multiplier) edges.rows.length
          (printAt (edges.rows.length * multiplier) (1 ⊔ edges.rows.length * multiplier / 10))
          (pyRandPair edges.rows.length seed)
          ⟨edges.rows.map fun r => (r.1, r.2.1),
           (edges.rows.map fun r => (r.1, r.2.1)).toFinset, 0, 0, 0, 0, []⟩
          (edges.rows.length * multiplier)).edgeList := by
      rw [List.map_map]
      exact List.map_id _
    refine ⟨?_, ?_, ?_, ?_, ?_⟩
    · dsimp only
      rw [List.length_map]
      have hl := congrArg List.length (permRun_map_fst directed excludedEdges.toFinset
        (edges.rows.map fun r => (r.1, r.2.1)).toFinset
        (edges.rows.length * multiplier) edges.rows.length
        (printAt (edges.rows.length * multiplier) (1 ⊔ edges.rows.length * multiplier / 10))
        (pyRandPair edges.rows.length seed)
        ⟨edges.rows.map fun r => (r.1, r.2.1),
         (edges.rows.map fun r => (r.1, r.2.1)).toFinset, 0, 0, 0, 0, []⟩
        (edges.rows.length * multiplier))
      simpa using hl
    · dsimp only
      rw [hrows]
      exact hfinal.1.1
    · dsimp only
      rw [hrows]
      exact hfinal.2.1
    · dsimp only
      rw [hrows]
      intro p hp hmem
      exact hfinal.2.2.1 p hp (List.mem_toFinset.mpr hmem)
    · dsimp only
      rw [hrows]
      exact hfinal.2.2.2

/-- Witness for the amended C2 theorem at a concrete clean two-edge
table: length preserved and output pairs duplicate-free. -/
theorem permute_edges_invariants_witness :
    (⟨["start_id", "end_id", "type"], [(1, 2, "t"), (3, 4, "t")]⟩ : EdgeFrame).rows.length
        = ([(1, 2, "t"), (3, 4, "t")] : List (Nat × Nat × String)).length ∧
    ((⟨["start_id", "end_id", "type"], [(1, 2, "t"), (3, 4, "t")]⟩ : EdgeFrame).rows.map
        fun r => (r.1, r.2.1)).Nodup :=
  ⟨(permute_edges_invariants ⟨["start_id", "end_id", "type"], [(1, 2, "t"), (3, 4, "t")]⟩
      false 0 [] 0 ⟨["start_id", "end_id", "type"], [(1, 2, "t"), (3, 4, "t")]⟩ [] rfl
      (by decide) (by decide) (by decide)).1,
   (permute_edges_invariants ⟨["start_id", "end_id", "type"], [(1, 2, "t"), (3, 4, "t")]⟩
      false 0 [] 0 ⟨["start_id", "end_id", "type"], [(1, 2, "t"), (3, 4, "t")]⟩ [] rfl
      (by decide) (by decide) (by decide)).2.1⟩

/-- C3: every swap attempt of the permutation loop is atomic and keeps
the edge list and the membership set consistent.  Starting from a
duplicate-free edge list with its membership set, after any number of
attempts the membership set is exactly the set of entries of the edge
list; and the next attempt either leaves both the list and the set
unchanged (some validity check failed for one of the two recombined
edges), or updates the two list positions and the membership set
together in the accepted-swap form. -/
theorem permute_loop_atomic_consistent (directed : Bool)
    (excluded orig : Finset (Nat × Nat)) (nPerm len : Nat) (pAt : List Nat)
    (picks : Nat → Nat × Nat) (pairs : List (Nat × Nat)) (hnd : pairs.Nodup) (k : Nat) :
    (permRun directed excluded orig nPerm len pAt picks
        ⟨pairs, pairs.toFinset, 0, 0, 0, 0, []⟩ k).edgeSet
      = (permRun directed excluded orig nPerm len pAt picks
          ⟨pairs, pairs.toFinset, 0, 0, 0, 0, []⟩ k).edgeList.toFinset ∧
    (((permRun directed excluded orig nPerm len pAt picks
          ⟨pairs, pairs.toFinset, 0, 0, 0, 0, []⟩ (k + 1)).edgeList
        = (permRun directed excluded orig nPerm len pAt picks
            ⟨pairs, pairs.toFinset, 0, 0, 0, 0, []⟩ k).edgeList ∧
      (permRun directed excluded orig nPerm len pAt picks
          ⟨pairs, pairs.toFinset, 0, 0, 0, 0, []⟩ (k + 1)).edgeSet
        = (permRun directed excluded orig nPerm len pAt picks
            ⟨pairs, pairs.toFinset, 0, 0, 0, 0, []⟩ k).edgeSet) ∨
     ∃ i0 i1 e0 e1,
       (permRun directed excluded orig nPerm len pAt picks
           ⟨pairs, pairs.toFinset, 0, 0, 0, 0, []⟩ k).edgeList[i0]? = some e0 ∧
       (permRun directed excluded orig nPerm len pAt picks
           ⟨pairs, pairs.toFinset, 0, 0, 0, 0, []⟩ k).edgeList[i1]? = some e1 ∧
       i0 ≠ i1 ∧
       checkEdge directed (permRun directed excluded orig nPerm len pAt picks
           ⟨pairs, pairs.toFinset, 0, 0, 0, 0, []⟩ k).edgeSet excluded (e0.1, e1.2) = none ∧
       checkEdge directed (permRun directed excluded orig nPerm len pAt picks
           ⟨pairs, pairs.toFinset, 0, 0, 0, 0, []⟩ k).edgeSet excluded (e1.1, e0.2) = none ∧
       (permRun directed excluded orig nPerm len pAt picks
           ⟨pairs, pairs.toFinset, 0, 0, 0, 0, []⟩ (k + 1)).edgeList
         = ((permRun directed excluded orig nPerm len pAt picks
             ⟨pairs, pairs.toFinset, 0, 0, 0, 0, []⟩ k).edgeList.set i0
               (e0.1, e1.2)).set i1 (e1.1, e0.2) ∧
       (permRun directed excluded orig nPerm len pAt picks
           ⟨pairs, pairs.toFinset, 0, 0, 0, 0, []⟩ (k + 1)).edgeSet
         = insert (e1.1, e0.2) (insert (e0.1, e1.2)
             (((permRun directed excluded orig nPerm len pAt picks
               ⟨pairs, pairs.toFinset, 0, 0, 0, 0, []⟩ k).edgeSet.erase e0).erase e1))) := by
  have hcons := permRun_consistent directed excluded orig nPerm len pAt picks
    ⟨pairs, pairs.toFinset, 0, 0, 0, 0, []⟩ ⟨hnd, rfl⟩ k
  refine ⟨hcons.2, ?_⟩
  rw [permRun_succ]
  unfold permStep
  rcases applyAttempt_atomic directed excluded
      (permRun directed excluded orig nPerm len pAt picks
        ⟨pairs, pairs.toFinset, 0, 0, 0, 0, []⟩ k) (picks k).1 (picks k).2 with
    ⟨hl, hs⟩ | ⟨e0, e1, h0, h1, hne, hc0, hc1, hl, hs⟩
  · left
    rw [recordStat_edgeList, recordStat_edgeSet, hl, hs]
    exact ⟨rfl, rfl⟩
  · right
    refine ⟨(picks k).1, (picks k).2, e0, e1, h0, h1, hne, hc0, hc1, ?_, ?_⟩
    · rw [recordStat_edgeList, hl]
    · rw [recordStat_edgeSet, hs]

/-- Witness for C3 at a concrete two-edge list, seedless pick stream and
one step. -/
theorem permute_loop_atomic_consistent_witness :
    (permRun false ∅ ∅ 2 2 [1] (fun _ => (0, 1))
        ⟨[(1, 2), (3, 4)], ([(1, 2), (3, 4)] : List (Nat × Nat)).toFinset, 0, 0, 0, 0, []⟩
        0).edgeSet
      = (permRun false ∅ ∅ 2 2 [1] (fun _ => (0, 1))
          ⟨[(1, 2), (3, 4)], ([(1, 2), (3, 4)] : List (Nat × Nat)).toFinset, 0, 0, 0, 0, []⟩
          0).edgeList.toFinset ∧
    (((permRun false ∅ ∅ 2 2 [1] (fun _ => (0, 1))
          ⟨[(1, 2), (3, 4)], ([(1, 2), (3, 4)] : List (Nat × Nat)).toFinset, 0, 0, 0, 0, []⟩
          (0 + 1)).edgeList
        = (permRun false ∅ ∅ 2 2 [1] (fun _ => (0, 1))
            ⟨[(1, 2), (3, 4)], ([(1, 2), (3, 4)] : List (Nat × Nat)).toFinset, 0, 0, 0, 0, []⟩
            0).edgeList ∧
      (permRun false ∅ ∅ 2 2 [1] (fun _ => (0, 1))
          ⟨[(1, 2), (3, 4)], ([(1, 2), (3, 4)] : List (Nat × Nat)).toFinset, 0, 0, 0, 0, []⟩
          (0 + 1)).edgeSet
        = (permRun false ∅ ∅ 2 2 [1] (fun _ => (0, 1))
            ⟨[(1, 2), (3, 4)], ([(1, 2), (3, 4)] : List (Nat × Nat)).toFinset, 0, 0, 0, 0, []⟩
            0).edgeSet) ∨
     ∃ i0 i1 e0 e1,
       (permRun false ∅ ∅ 2 2 [1] (fun _ => (0, 1))
           ⟨[(1, 2), (3, 4)], ([(1, 2), (3, 4)] : List (Nat × Nat)).toFinset, 0, 0, 0, 0, []⟩
           0).edgeList[i0]? = some e0 ∧
       (permRun false ∅ ∅ 2 2 [1] (fun _ => (0, 1))
           ⟨[(1, 2), (3, 4)], ([(1, 2), (3, 4)] : List (Nat × Nat)).toFinset, 0, 0, 0, 0, []⟩
           0).edgeList[i1]? = some e1 ∧
       i0 ≠ i1 ∧
       checkEdge false (permRun false ∅ ∅ 2 2 [1] (fun _ => (0, 1))
           ⟨[(1, 2), (3, 4)], ([(1, 2), (3, 4)] : List (Nat × Nat)).toFinset, 0, 0, 0, 0, []⟩
           0).edgeSet ∅ (e0.1, e1.2) = none ∧
       checkEdge false (permRun false ∅ ∅ 2 2 [1] (fun _ => (0, 1))
           ⟨[(1, 2), (3, 4)], ([(1, 2), (3, 4)] : List (Nat × Nat)).toFinset, 0, 0, 0, 0, []⟩
           0).edgeSet ∅ (e1.1, e0.2) = none ∧
       (permRun false ∅ ∅ 2 2 [1] (fun _ => (0, 1))
           ⟨[(1, 2), (3, 4)], ([(1, 2), (3, 4)] : List (Nat × Nat)).toFinset, 0, 0, 0, 0, []⟩
           (0 + 1)).edgeList
         = ((permRun false ∅ ∅ 2 2 [1] (fun _ => (0, 1))
             ⟨[(1, 2), (3, 4)], ([(1, 2), (3, 4)] : List (Nat × Nat)).toFinset, 0, 0, 0, 0, []⟩
             0).edgeList.set i0 (e0.1, e1.2)).set i1 (e1.1, e0.2) ∧
       (permRun false ∅ ∅ 2 2 [1] (fun _ => (0, 1))
           ⟨[(1, 2), (3, 4)], ([(1, 2), (3, 4)] : List (Nat × Nat)).toFinset, 0, 0, 0, 0, []⟩
           (0 + 1)).edgeSet
         = insert (e1.1, e0.2) (insert (e0.1, e1.2)
             (((permRun false ∅ ∅ 2 2 [1] (fun _ => (0, 1))
               ⟨[(1, 2), (3, 4)], ([(1, 2), (3, 4)] : List (Nat × Nat)).toFinset,
                 0, 0, 0, 0, []⟩ 0).edgeSet.erase e0).erase e1))) :=
  permute_loop_atomic_consistent false ∅ ∅ 2 2 [1] (fun _ => (0, 1)) [(1, 2), (3, 4)]
    (by decide) 0

end HetnetML
